import Mathlib

/-!
Verification of the chronicle-ai D&D engine world model and rules layer.

This file gives a shallow embedding, in Lean, of the parts of the Rust
sources that the checked claims are about:

* `dnd-core/src/world/health.rs` — `HitPoints`, `DamageResult`, `HitDice`,
  `DeathSaves`;
* `dnd-core/src/world/conditions.rs` — `Condition`, `ActiveCondition`;
* `dnd-core/src/world/equipment.rs` — `Item`, `ItemType`, `Inventory`;
* `chronicler-core/src/world/spellcasting.rs` — `SlotInfo`, `SpellSlots`,
  `SpellcastingData`;
* `chronicle-core/src/world/combat.rs` — `Combatant`, `CombatState`;
* `chronicler-core/src/world/character.rs` — `Character` condition methods;
* `chronicle-core/src/world/mechanics/rest.rs` — `apply_long_rest`;
* `chronicler-core/src/rules/effects.rs` — `apply_effect` / `apply_effects`
  (the arms the claims exercise);
* `chronicler-core/src/rules/resolve/class_features.rs` —
  `resolve_use_divine_smite`;
* `chronicle-core/src/dm/relevance.rs` — `extract_json`, `sanitize_json`.

Machine integers are embedded as `Int` (for Rust `i32`) and `Nat` (for
Rust `u8`/`u32`/`usize`); none of the verified behaviour depends on
wrap-around, so no modular reduction is inserted.  Rust `HashMap` /
`HashSet` fields are embedded as association lists / lists; the only
map operations the claims exercise are pointwise reads and updates.
Rust `Vec` is a Lean `List`; `push` is `++ [x]`.  Struct fields that no
claim reads (names, ability scores, proficiencies, equipment slots,
class resources, …) are omitted from the corresponding Lean records.

Characters and worlds exist in three closely parallel crates
(`dnd-core`, `chronicle-core`, `chronicler-core`).  The claims cite a
specific crate for each operation; where a type's defining file is not
among the provided sources, its shape is reconstructed from the uses in
the cited files (noted per definition).
-/

namespace Chronicle

/-- `DieType` from `dnd-core/src/dice.rs` (defining file not among the
provided sources; the variants are reconstructed from their uses, e.g.
`DieType::D10` in `rest.rs` and `game_world.rs`). -/
inductive DieType where
  | d4 | d6 | d8 | d10 | d12 | d20 | d100
deriving DecidableEq, Repr

/-- `HitPoints` from `dnd-core/src/world/health.rs` (`current`, `maximum`,
`temporary` are Rust `i32`). -/
structure HitPoints where
  current : Int
  maximum : Int
  temporary : Int
deriving DecidableEq, Repr

/-- `DamageResult` from `dnd-core/src/world/health.rs`. -/
structure DamageResult where
  damage_taken : Int
  dropped_to_zero : Bool
deriving DecidableEq, Repr

namespace HitPoints

/-- `HitPoints::new`. -/
def new (maximum : Int) : HitPoints :=
  { current := maximum, maximum := maximum, temporary := 0 }

/-- `HitPoints::take_damage`.  Mirrors the Rust control flow: temporary
hit points absorb the damage first; only the excess reaches `current`,
which is *not* clamped at zero. -/
def take_damage (hp : HitPoints) (amount : Int) : HitPoints × DamageResult :=
  if hp.temporary > 0 then
    if hp.temporary ≥ amount then
      ({ hp with temporary := hp.temporary - amount },
       { damage_taken := amount, dropped_to_zero := false })
    else
      let remaining := amount - hp.temporary
      let hp2 : HitPoints :=
        { hp with temporary := 0, current := hp.current - remaining }
      (hp2, { damage_taken := amount, dropped_to_zero := decide (hp2.current ≤ 0) })
  else
    let hp2 : HitPoints := { hp with current := hp.current - amount }
    (hp2, { damage_taken := amount, dropped_to_zero := decide (hp2.current ≤ 0) })

/-- `HitPoints::heal`; the second component is the returned healed delta. -/
def heal (hp : HitPoints) (amount : Int) : HitPoints × Int :=
  let old := hp.current
  let hp2 : HitPoints := { hp with current := min (hp.current + amount) hp.maximum }
  (hp2, hp2.current - old)

/-- `HitPoints::add_temp_hp`. -/
def add_temp_hp (hp : HitPoints) (amount : Int) : HitPoints :=
  { hp with temporary := max hp.temporary amount }

/-- `HitPoints::is_unconscious`. -/
def is_unconscious (hp : HitPoints) : Bool :=
  hp.current ≤ 0

end HitPoints

/-- `HitDice` from `dnd-core/src/world/health.rs`.  The two Rust
`HashMap<DieType, u8>` fields are embedded as association lists; an
absent key and a key bound to `0` stay distinguishable, exactly as in
the Rust maps. -/
structure HitDice where
  total : List (DieType × Nat)
  remaining : List (DieType × Nat)
deriving DecidableEq, Repr

/-- Pointwise update of an association list: apply `f` to the value bound
to `k`, leaving the list unchanged when `k` is absent (the embedding of
`HashMap::get_mut` followed by an in-place write). -/
def updateAssoc (k : DieType) (f : Nat → Nat) :
    List (DieType × Nat) → List (DieType × Nat)
  | [] => []
  | (k2, v) :: rest =>
      if k2 = k then (k2, f v) :: rest else (k2, v) :: updateAssoc k f rest

/-- Lookup in an association list (the embedding of `HashMap::get`). -/
def lookupAssoc (k : DieType) : List (DieType × Nat) → Option Nat
  | [] => none
  | (k2, v) :: rest => if k2 = k then some v else lookupAssoc k rest

namespace HitDice

/-- `HitDice::recover_half`: for every die type in `total`, raise the
`remaining` entry (when present) by `ceil(total/2)`, capped at `total`.
The Rust `(*total as f32 / 2.0).ceil() as u8` is exact for `u8` inputs
and equals `(t + 1) / 2` in `Nat`. -/
def recover_half (hd : HitDice) : HitDice :=
  { hd with
    remaining :=
      hd.total.foldl
        (fun rem kt =>
          updateAssoc kt.1 (fun r => min (r + (kt.2 + 1) / 2) kt.2) rem)
        hd.remaining }

end HitDice

/-- `DeathSaves` from `dnd-core/src/world/health.rs`. -/
structure DeathSaves where
  successes : Nat
  failures : Nat
deriving DecidableEq, Repr

namespace DeathSaves

/-- `DeathSaves::add_failure`; the Bool is `failures >= 3`. -/
def add_failure (ds : DeathSaves) : DeathSaves × Bool :=
  let ds2 : DeathSaves := { ds with failures := ds.failures + 1 }
  (ds2, decide (ds2.failures ≥ 3))

/-- `DeathSaves::reset`. -/
def reset (_ : DeathSaves) : DeathSaves :=
  { successes := 0, failures := 0 }

end DeathSaves

/-- `Condition` from `dnd-core/src/world/conditions.rs` (`Exhaustion`
carries a Rust `u8` level). -/
inductive Condition where
  | Blinded | Charmed | Deafened | Frightened | Grappled | Incapacitated
  | Invisible | Paralyzed | Petrified | Poisoned | Prone | Restrained
  | Stunned | Unconscious
  | Exhaustion (level : Nat)
deriving DecidableEq, Repr

/-- The embedding of `std::mem::discriminant` on `Condition`: two
conditions share a discriminant exactly when they are built from the
same constructor, so every `Exhaustion(_)` shares one discriminant. -/
def Condition.discr : Condition → Nat
  | .Blinded => 0
  | .Charmed => 1
  | .Deafened => 2
  | .Frightened => 3
  | .Grappled => 4
  | .Incapacitated => 5
  | .Invisible => 6
  | .Paralyzed => 7
  | .Petrified => 8
  | .Poisoned => 9
  | .Prone => 10
  | .Restrained => 11
  | .Stunned => 12
  | .Unconscious => 13
  | .Exhaustion _ => 14

/-- `ActiveCondition` from `dnd-core/src/world/conditions.rs`
(`duration_rounds` is `Option<u32>`). -/
structure ActiveCondition where
  condition : Condition
  source : String
  duration_rounds : Option Nat
deriving DecidableEq, Repr

/-- `ItemType` from `dnd-core/src/world/equipment.rs`. -/
inductive ItemType where
  | Weapon | Armor | Shield | Potion | Scroll | Wand | Ring | Wondrous
  | Adventuring | Tool | Other
deriving DecidableEq, Repr

/-- `Item` from `dnd-core/src/world/equipment.rs`; `weight`, `value_gp`
(floats) and `description`, `magical` are omitted — no claim reads them. -/
structure Item where
  name : String
  quantity : Nat
  item_type : ItemType
deriving DecidableEq, Repr

/-- `Item::is_stackable` from `dnd-core/src/world/equipment.rs`. -/
def Item.is_stackable (item : Item) : Bool :=
  match item.item_type with
  | .Weapon | .Armor | .Shield => false
  | .Wand | .Ring | .Wondrous => false
  | .Potion | .Scroll | .Adventuring | .Tool | .Other => true

/-- `Inventory` from `dnd-core/src/world/equipment.rs`. -/
structure Inventory where
  items : List Item
  gold : Int
  silver : Int
deriving DecidableEq, Repr

/-- The embedding of `self.items.iter_mut().find(|i| i.name == item.name)`
followed by `existing.quantity += item.quantity` inside
`Inventory::add_item`: bump the quantity of the first entry with the
*exactly* equal name; report whether one was found. -/
def stackFirst (name : String) (qty : Nat) :
    List Item → List Item × Bool
  | [] => ([], false)
  | i :: rest =>
      if i.name = name then
        ({ i with quantity := i.quantity + qty } :: rest, true)
      else
        let (rest2, found) := stackFirst name qty rest
        (i :: rest2, found)

/-- `Inventory::add_item` from `dnd-core/src/world/equipment.rs`:
stackable item types merge into the first entry with an exactly equal
name; everything else (and a stackable item with no match) is pushed at
the end. -/
def Inventory.add_item (inv : Inventory) (item : Item) : Inventory :=
  if item.is_stackable then
    let (items2, found) := stackFirst item.name item.quantity inv.items
    if found then { inv with items := items2 }
    else { inv with items := inv.items ++ [item] }
  else
    { inv with items := inv.items ++ [item] }

/-- `SlotInfo` from `chronicler-core/src/world/spellcasting.rs`
(`total`, `used` are Rust `u8`). -/
structure SlotInfo where
  total : Nat
  used : Nat
deriving DecidableEq, Repr

/-- `SlotInfo::available` (`total.saturating_sub(used)`). -/
def SlotInfo.available (s : SlotInfo) : Nat :=
  s.total - s.used

/-- `SpellSlots` from `chronicler-core/src/world/spellcasting.rs`; the
Rust `[SlotInfo; 9]` is a list whose well-formed length is 9. -/
structure SpellSlots where
  slots : List SlotInfo
deriving DecidableEq, Repr

namespace SpellSlots

/-- Update the element of a list at a position (embedding of an
in-place indexed write into the Rust array). -/
def setAt (l : List SlotInfo) (i : Nat) (f : SlotInfo → SlotInfo) :
    List SlotInfo :=
  l.mapIdx (fun j s => if j = i then f s else s)

/-- `SpellSlots::use_slot`: for level 1..=9 with an available slot,
increment `used`; the Bool reports whether a slot was consumed. -/
def use_slot (ss : SpellSlots) (level : Nat) : SpellSlots × Bool :=
  if 1 ≤ level ∧ level ≤ 9 then
    match ss.slots.get? (level - 1) with
    | some slot =>
        if slot.available > 0 then
          ({ slots := setAt ss.slots (level - 1)
              (fun s => { s with used := s.used + 1 }) }, true)
        else (ss, false)
    | none => (ss, false)
  else (ss, false)

/-- `SpellSlots::recover_all`. -/
def recover_all (ss : SpellSlots) : SpellSlots :=
  { slots := ss.slots.map (fun s => { s with used := 0 }) }

end SpellSlots

/-- `SpellcastingData` from `chronicler-core/src/world/spellcasting.rs`;
`ability` and the three spell-name lists are omitted — no claim reads
them. -/
structure SpellcastingData where
  spell_slots : SpellSlots
deriving DecidableEq, Repr

/-- `RechargeType` from the `classes` world submodule (defining file not
among the provided sources; the variants are reconstructed from their
uses in `rest.rs` and `game_world.rs`). -/
inductive RechargeType where
  | ShortRest | LongRest
deriving DecidableEq, Repr

/-- `FeatureUses` (same provenance as `RechargeType`). -/
structure FeatureUses where
  current : Nat
  maximum : Nat
  recharge : RechargeType
deriving DecidableEq, Repr

/-- `Feature` (same provenance as `RechargeType`); `description` and
`source` are omitted — no claim reads them. -/
structure Feature where
  name : String
  uses : Option FeatureUses
deriving DecidableEq, Repr

end Chronicle

namespace Chronicle

/-- `Combatant` from `chronicle-core/src/world/combat.rs` (`initiative`,
`current_hp`, `max_hp` are `i32`; ids are opaque `CharacterId`s embedded
as `Nat`); `name`, `is_ally`, `armor_class` are omitted — no claim reads
them. -/
structure Combatant where
  id : Nat
  initiative : Int
  is_player : Bool
  current_hp : Int
  max_hp : Int
deriving DecidableEq, Repr

/-- Stable insertion of a combatant into a descending-by-initiative list:
the new element goes after every element whose initiative is ≥ its own. -/
def insertByInit (c : Combatant) : List Combatant → List Combatant
  | [] => [c]
  | x :: xs =>
      if c.initiative > x.initiative then c :: x :: xs
      else x :: insertByInit c xs

/-- The embedding of
`self.combatants.sort_by_key(|c| std::cmp::Reverse(c.initiative))`:
Rust's slice sort is stable, and this left-to-right insertion sort is
the (extensionally equal) stable sort by descending initiative. -/
def sortByInitDesc (l : List Combatant) : List Combatant :=
  l.foldl (fun acc c => insertByInit c acc) []

/-- `CombatState` from `chronicle-core/src/world/combat.rs`.  The
`HashSet<CharacterId>` / `HashMap<CharacterId, u8>` per-turn trackers
are embedded as lists (the claims only ever observe them being
cleared).  `chronicler-core`'s own `world/combat.rs` is not among the
provided sources; the claims cite this file for the combat state used
by both crates. -/
structure CombatState where
  active : Bool
  round : Nat
  turn_index : Nat
  combatants : List Combatant
  sneak_attack_used : List Nat
  attacks_this_turn : List (Nat × Nat)
deriving DecidableEq, Repr

namespace CombatState

/-- `CombatState::new`. -/
def new : CombatState :=
  { active := true, round := 1, turn_index := 0, combatants := [],
    sneak_attack_used := [], attacks_this_turn := [] }

/-- `CombatState::add_combatant`: push, then stable-sort by descending
initiative. -/
def add_combatant (s : CombatState) (c : Combatant) : CombatState :=
  { s with combatants := sortByInitDesc (s.combatants ++ [c]) }

/-- `CombatState::next_turn`: advance `turn_index`, wrapping to 0 and
bumping `round` when it passes the end; clear the per-turn trackers. -/
def next_turn (s : CombatState) : CombatState :=
  let ti := s.turn_index + 1
  let s2 :=
    if ti ≥ s.combatants.length then
      { s with turn_index := 0, round := s.round + 1 }
    else
      { s with turn_index := ti }
  { s2 with sneak_attack_used := [], attacks_this_turn := [] }

/-- `CombatState::update_combatant_hp`. -/
def update_combatant_hp (s : CombatState) (id : Nat) (new_hp : Int) :
    CombatState :=
  { s with
    combatants :=
      match s.combatants.findIdx? (fun c => c.id = id) with
      | some i =>
          s.combatants.mapIdx
            (fun j c => if j = i then { c with current_hp := new_hp } else c)
      | none => s.combatants }

end CombatState

/-- `Character` from `chronicler-core/src/world/character.rs`, restricted
to the fields some claim reads (`name`, ability scores, level,
experience, AC, speed, classes, class resources, proficiencies,
equipment, race, background and backstory are omitted). -/
structure Character where
  id : Nat
  name : String
  hit_points : HitPoints
  hit_dice : HitDice
  death_saves : DeathSaves
  conditions : List ActiveCondition
  features : List Feature
  spellcasting : Option SpellcastingData
  inventory : Inventory
deriving DecidableEq, Repr

namespace Character

/-- `Character::has_condition`: discriminant-based membership test. -/
def has_condition (c : Character) (condition : Condition) : Bool :=
  c.conditions.any (fun ac => ac.condition.discr = condition.discr)

/-- `Character::add_condition_with_duration`: push a new active
condition unless one with the same discriminant is already present (in
which case the character is unchanged).  The Rust method also returns
whether it added; no caller in scope uses that Bool. -/
def add_condition_with_duration (c : Character) (condition : Condition)
    (source : String) (duration_rounds : Option Nat) : Character :=
  if c.has_condition condition then c
  else
    { c with
      conditions :=
        c.conditions ++
          [{ condition := condition, source := source,
             duration_rounds := duration_rounds }] }

/-- `Character::add_condition` (duration `None`). -/
def add_condition (c : Character) (condition : Condition)
    (source : String) : Character :=
  c.add_condition_with_duration condition source none

end Character

/-- `GameWorld` from `chronicler-core/src/world/game_world.rs`,
restricted to the fields the claims read (session/campaign metadata,
NPCs, mode, locations, quests, time and narrative history are
omitted). -/
structure GameWorld where
  player_character : Character
  combat : Option CombatState
deriving DecidableEq, Repr

/-- `RollResult` from `dnd-core/src/dice.rs` (defining file not among
the provided sources), restricted to the fields the claims read: the
original dice expression text that was rolled (`expression.original`)
and the rolled total.  The component breakdown and nat-20 flags are
omitted. -/
structure RollResult where
  original : String
  total : Int
deriving DecidableEq, Repr

/-- `Effect` from `chronicler-core/src/rules/types.rs` (defining file
not among the provided sources; every variant and its fields are
reconstructed from the exhaustive match in
`chronicler-core/src/rules/effects.rs`).  Only the variants the claims
exercise are embedded; the remaining variants touch state that no claim
reads. -/
inductive Effect where
  | HpChanged (target_id : Nat) (amount : Int) (new_current new_max : Int)
      (dropped_to_zero : Bool)
  | ConditionApplied (condition : Condition) (source : String)
      (duration_rounds : Option Nat)
  | ConditionRemoved (condition : Condition)
  | TurnAdvanced
  | SpellSlotUsed (level : Nat)
  | DiceRolled (roll : RollResult) (purpose : String)
  | ClassResourceUsed (character_name resource_name description : String)
  | DeathSaveFailure (failures : Nat)
  | DeathSavesReset
  | DeathSaveSuccess (total_successes : Nat)
  | Stabilized
  | CharacterDied
deriving DecidableEq, Repr

/-- The `retain_mut` body of the `Effect::TurnAdvanced` arm: a condition
with a positive duration is decremented and kept only while the new
duration is still positive; a condition with duration `Some(0)` is
dropped; a condition with no duration is kept. -/
def tickCondition (c : ActiveCondition) : Option ActiveCondition :=
  match c.duration_rounds with
  | some d =>
      let d2 := if d > 0 then d - 1 else d
      if d2 > 0 then some { c with duration_rounds := some d2 } else none
  | none => some c

/-- `apply_effect` from `chronicler-core/src/rules/effects.rs`, arm for
arm over the embedded `Effect` variants.  Mirrored Rust comments mark
the arms that deliberately leave the world unchanged. -/
def apply_effect (world : GameWorld) (effect : Effect) : GameWorld :=
  match effect with
  | .HpChanged _ amount _ _ dropped_to_zero =>
      let was_unconscious := world.player_character.hit_points.current ≤ 0
      let pc := world.player_character
      let pc :=
        if amount < 0 then
          { pc with hit_points := (pc.hit_points.take_damage (-amount)).1 }
        else
          { pc with hit_points := (pc.hit_points.heal amount).1 }
      -- Add Unconscious condition if dropped to 0 (only if not already unconscious)
      let pc :=
        if dropped_to_zero then pc.add_condition .Unconscious "Dropped to 0 HP"
        else pc
      -- Remove Unconscious condition and reset death saves if healed above 0
      let pc :=
        if was_unconscious ∧ pc.hit_points.current > 0 then
          { pc with
            conditions :=
              pc.conditions.filter (fun c => c.condition ≠ .Unconscious),
            death_saves := pc.death_saves.reset }
        else pc
      -- Sync HP to combat state if in combat
      let combat :=
        match world.combat with
        | some c => some (c.update_combatant_hp pc.id pc.hit_points.current)
        | none => none
      { world with player_character := pc, combat := combat }
  | .ConditionApplied condition source duration_rounds =>
      { world with
        player_character :=
          world.player_character.add_condition_with_duration condition source
            duration_rounds }
  | .ConditionRemoved condition =>
      { world with
        player_character :=
          { world.player_character with
            conditions :=
              world.player_character.conditions.filter
                (fun c => c.condition ≠ condition) } }
  | .TurnAdvanced =>
      let world :=
        match world.combat with
        | some c => { world with combat := some c.next_turn }
        | none => world
      -- Decrement condition durations and remove expired conditions
      { world with
        player_character :=
          { world.player_character with
            conditions :=
              world.player_character.conditions.filterMap tickCondition } }
  | .SpellSlotUsed level =>
      match world.player_character.spellcasting with
      | some sc =>
          { world with
            player_character :=
              { world.player_character with
                spellcasting :=
                  some { sc with
                         spell_slots := (sc.spell_slots.use_slot level).1 } } }
      | none => world
  | .DiceRolled _ _ => world
  | .ClassResourceUsed _ _ _ => world
  | .DeathSaveFailure failures =>
      { world with
        player_character :=
          { world.player_character with
            death_saves :=
              { world.player_character.death_saves with
                failures :=
                  world.player_character.death_saves.failures + failures } } }
  | .DeathSavesReset =>
      { world with
        player_character :=
          { world.player_character with
            death_saves := world.player_character.death_saves.reset } }
  | .DeathSaveSuccess total_successes =>
      { world with
        player_character :=
          { world.player_character with
            death_saves :=
              { world.player_character.death_saves with
                successes := total_successes } } }
  | .Stabilized =>
      -- Character is stable - still unconscious but no longer making death saves
      { world with
        player_character :=
          { world.player_character with
            death_saves := world.player_character.death_saves.reset } }
  | .CharacterDied =>
      -- Character death is tracked via the effect itself; the Rust arm
      -- does not modify world state further
      world

/-- `apply_effects` from `chronicler-core/src/rules/effects.rs`. -/
def apply_effects (world : GameWorld) (effects : List Effect) : GameWorld :=
  effects.foldl apply_effect world

end Chronicle

namespace Chronicle

/-- `apply_long_rest` from `chronicle-core/src/world/mechanics/rest.rs`,
step by step in source order.  The final class-resource recovery loop
(`ClassResources::long_rest_recovery`) mutates only the class-resource
fields, which no claim reads and which are not part of the embedded
`Character`; it is therefore the identity on the embedded state and is
omitted. -/
def apply_long_rest (c0 : Character) : Character :=
  -- Full HP recovery
  let c1 : Character :=
    { c0 with
      hit_points := { c0.hit_points with current := c0.hit_points.maximum } }
  -- Remove Unconscious condition if present (they're now healed)
  let c2 : Character :=
    { c1 with
      conditions :=
        c1.conditions.filter (fun ac => ac.condition ≠ .Unconscious) }
  -- Reduce exhaustion by 1 level (if any)
  let c3 : Character :=
    { c2 with
      conditions :=
        c2.conditions.map (fun ac =>
          match ac.condition with
          | .Exhaustion level =>
              if level > 0 then { ac with condition := .Exhaustion (level - 1) }
              else ac
          | _ => ac) }
  -- Remove exhaustion if reduced to 0
  let c4 : Character :=
    { c3 with
      conditions :=
        c3.conditions.filter (fun ac => ac.condition ≠ .Exhaustion 0) }
  -- Recover half hit dice
  let c5 : Character := { c4 with hit_dice := c4.hit_dice.recover_half }
  -- Recover spell slots
  let c6 : Character :=
    match c5.spellcasting with
    | some sc =>
        { c5 with
          spellcasting := some { sc with spell_slots := sc.spell_slots.recover_all } }
    | none => c5
  -- Reset feature uses (both short rest and long rest features)
  { c6 with
    features :=
      c6.features.map (fun f =>
        match f.uses with
        | some u =>
            match u.recharge with
            | .LongRest | .ShortRest =>
                { f with uses := some { u with current := u.maximum } }
        | none => f) }

/-- `Resolution` from `chronicler-core/src/rules/types.rs` (defining
file not among the provided sources; the shape — a narrative plus an
ordered effect list, built with `Resolution::new` and `with_effect` —
is reconstructed from its uses across `rules/resolve/`). -/
structure Resolution where
  narrative : String
  effects : List Effect
deriving DecidableEq, Repr

/-- `Resolution::new`: a narrative with an empty effect list. -/
def Resolution.new (narrative : String) : Resolution :=
  { narrative := narrative, effects := [] }

/-- `Resolution::with_effect`: append one effect. -/
def Resolution.with_effect (r : Resolution) (e : Effect) : Resolution :=
  { r with effects := r.effects ++ [e] }

/-- `RulesEngine::resolve_use_divine_smite` from
`chronicler-core/src/rules/resolve/class_features.rs`.  The call
`roll_with_fallback("{total_dice}d8", "2d8")` draws from the
process-wide PRNG; the embedding passes the drawn total in as the
`rollTotal` argument and records the same notation string in the
`DiceRolled` effect.  `spell_slot_level.saturating_sub(1)` is `Nat`
subtraction. -/
def resolve_use_divine_smite (world : GameWorld) (spell_slot_level : Nat)
    (target_is_undead_or_fiend : Bool) (rollTotal : Int) : Resolution :=
  let character := world.player_character
  -- Check if they have spell slots available
  let no_slot_available : Bool :=
    match character.spellcasting with
    | some sc =>
        let slot_idx := spell_slot_level - 1
        if slot_idx < 9 then
          ((sc.spell_slots.slots.get? slot_idx).getD
            { total := 0, used := 0 }).available == 0
        else false
    | none => false
  if no_slot_available then
    Resolution.new
      (character.name ++ " has no level " ++ toString spell_slot_level ++
        " spell slots remaining!")
  else
    -- Base: 2d8, +1d8 per slot level above 1st, max 5d8; extra 1d8 vs undead/fiends
    let base_dice := 2 + min (spell_slot_level - 1) 3
    let total_dice :=
      if target_is_undead_or_fiend then min (base_dice + 1) 6
      else min base_dice 5
    let damage_roll : RollResult :=
      { original := toString total_dice ++ "d8", total := rollTotal }
    let extra_text :=
      if target_is_undead_or_fiend then " (extra damage vs undead/fiend)" else ""
    ((Resolution.new
        (character.name ++ " channels divine power into their strike! Divine Smite deals " ++
          toString total_dice ++ "d8 = " ++ toString damage_roll.total ++
          " radiant damage" ++ extra_text ++ ". (Level " ++
          toString spell_slot_level ++ " slot expended)")).with_effect
      (.DiceRolled damage_roll "Divine Smite damage")).with_effect
      (.ClassResourceUsed character.name "Divine Smite"
        ("Used level " ++ toString spell_slot_level ++ " slot for smite"))

end Chronicle

namespace Chronicle

/-! ### JSON repair utilities (`chronicle-core/src/dm/relevance.rs`)

`extract_json` and `sanitize_json` are embedded over `List Char`.  The
Rust `extract_json` is byte-index consistent: `find` returns byte
offsets, the brace scan walks bytes, and both slice the same `&str`;
since in valid UTF-8 no byte of a multi-byte character equals an ASCII
delimiter (`\` `"` braces), the per-character model below is
extensionally faithful for every input.  The Rust `sanitize_json` is
NOT: its collect loop computes `i` as an index into a `Vec<char>` and
then slices bytes with it (`&remaining[i + 1..]`), which panics or
mis-slices whenever the preceding string content holds a multi-byte
character, and its key check `remaining[1..].find('"')` is likewise a
byte offset.  The model is character-indexed throughout and so agrees
with the Rust exactly on ASCII input; every positive theorem about
`sanitize_json` therefore carries an explicit `asciiList` hypothesis.
`str::trim` / `trim_start` strip Unicode whitespace; `isWs` covers the
ASCII subset, which coincides on the ASCII-restricted statements and on
the brace-delimited ends inspected by the extract theorem. -/

/-- ASCII whitespace, as trimmed by `str::trim`. -/
def isWs (c : Char) : Bool :=
  c = ' ' ∨ c = '\t' ∨ c = '\n' ∨ c = '\r'

/-- `str::trim_start`. -/
def trimStart (l : List Char) : List Char :=
  l.dropWhile isWs

/-- `str::trim`. -/
def trimList (l : List Char) : List Char :=
  ((l.dropWhile isWs).reverse.dropWhile isWs).reverse

/-- Prefix test (`str::starts_with` on a pattern). -/
def begins : List Char → List Char → Bool
  | [], _ => true
  | _ :: _, [] => false
  | p :: ps, c :: cs => p = c && begins ps cs

/-- `str::find(pattern)`: index of the first occurrence. -/
def findSub (pat : List Char) : List Char → Option Nat
  | [] => if begins pat [] then some 0 else none
  | c :: rest =>
      if begins pat (c :: rest) then some 0
      else (findSub pat rest).map (· + 1)

/-- State of the brace-matching scan inside `extract_json`. -/
structure ScanSt where
  depth : Int
  in_string : Bool
  escape_next : Bool
deriving DecidableEq, Repr

/-- One step of the scan, mirroring the arm order of the Rust `match`:
escape consumption, then `\` (only inside a string), then `"` (always
toggles), then `{` / `}` (only outside strings). -/
def scanStep (s : ScanSt) (b : Char) : ScanSt :=
  if s.escape_next then { s with escape_next := false }
  else if b = '\\' ∧ s.in_string then { s with escape_next := true }
  else if b = '"' then { s with in_string := !s.in_string }
  else if b = '\x7b' ∧ ¬s.in_string then { s with depth := s.depth + 1 }
  else if b = '\x7d' ∧ ¬s.in_string then { s with depth := s.depth - 1 }
  else s

/-- Whether processing `b` in state `s` makes the Rust loop return:
a closing brace outside a string that brings the depth to zero. -/
def scanExit (s : ScanSt) (b : Char) : Bool :=
  if s.escape_next then false
  else if s.in_string then false
  else if b = '\x7d' then s.depth - 1 == 0
  else false

/-- The brace-matching loop: the index (from the scan start) of the
closing brace at depth zero, if the scan ever reaches one. -/
def scanGo : List Char → ScanSt → Nat → Option Nat
  | [], _, _ => none
  | b :: rest, s, i =>
      if scanExit s b then some i
      else scanGo rest (scanStep s b) (i + 1)

/-- The initial scan state (`depth = 0`, outside any string). -/
def scanInit : ScanSt :=
  { depth := 0, in_string := false, escape_next := false }

/-- `extract_json` from `chronicle-core/src/dm/relevance.rs`: trim; take
the contents of a ```` ```json ```` fence, else of a plain ```` ``` ````
fence; else brace-match from the first `{`; else return the trimmed
text.  A fence opener whose closer is missing falls through, exactly as
in the Rust (whose `if let` blocks only return on full success). -/
def extract_json (text0 : List Char) : List Char :=
  let text := trimList text0
  let fenced_json : Option (List Char) :=
    match findSub "```json".toList text with
    | some start =>
        let tail := text.drop (start + 7)
        match findSub "```".toList tail with
        | some e => some (trimList (tail.take e))
        | none => none
    | none => none
  match fenced_json with
  | some r => r
  | none =>
    let fenced : Option (List Char) :=
      match findSub "```".toList text with
      | some start =>
          let tail := text.drop (start + 3)
          match findSub "```".toList tail with
          | some e => some (trimList (tail.take e))
          | none => none
      | none => none
    match fenced with
    | some r => r
    | none =>
      match findSub "\x7b".toList text with
      | some start =>
          let tail := text.drop start
          match scanGo tail scanInit 0 with
          | some i => tail.take (i + 1)
          | none => text
      | none => text

/-- The closing-quote scan inside `sanitize_json`: the least `i` (counted
with the supplied start offset) at which an unescaped `"` appears,
carrying the previous character for the `chars[i-1] != '\\'` test. -/
def findClosingQuote : List Char → Char → Nat → Option Nat
  | [], _, _ => none
  | c :: rest, prev, i =>
      if c = '"' ∧ prev ≠ '\\' then some i
      else findClosingQuote rest c (i + 1)

/-- `strings.join("; ")`. -/
def joinSep (sep : List Char) : List (List Char) → List Char
  | [] => []
  | [s] => s
  | s :: rest => s ++ sep ++ joinSep sep rest

/-- The string-collecting loop of `sanitize_json`: starting from a
position that begins with `"`, repeatedly take a quoted string, then
continue past a comma unless the next quoted text is followed by `:`
(a key).  Returns the collected contents and the final `remaining`.
The Rust `while` loop terminates because every iteration strictly
shrinks `remaining`; here the same recursion is made structural on a
fuel argument that the caller seeds with `remaining.length + 1`, which
that shrinking argument shows is never exhausted.  The Rust loop finds
the closing quote at a CHAR index `i` over `Vec<char>` but then slices
bytes with it (`&remaining[i + 1..]`), panicking or mis-slicing on
multi-byte content; this model is char-indexed throughout and so
matches the Rust exactly on ASCII input only — the theorems about
`sanitize_json` restrict to that domain via `asciiList`. -/
def collectStrings : Nat → List Char → List (List Char) →
    List (List Char) × List Char
  | 0, remaining, strings => (strings, remaining)
  | fuel + 1, remaining, strings =>
    if remaining.head? ≠ some '"' then (strings, remaining)
    else
      match findClosingQuote (remaining.drop 1) '"' 1 with
      | none => (strings, remaining)  -- malformed, give up
      | some i =>
          let content := (remaining.take i).drop 1
          let strings2 := strings ++ [content]
          let rem1 := trimStart (remaining.drop (i + 1))
          if rem1.head? = some ',' then
            let rem2 := trimStart (rem1.drop 1)
            if rem2.head? ≠ some '"' then (strings2, rem2)
            else
              match findSub "\"".toList (rem2.drop 1) with
              | some quote_end =>
                  let after_string := trimStart (rem2.drop (quote_end + 2))
                  if after_string.head? = some ':' then (strings2, rem2)
                  else collectStrings fuel rem2 strings2
              | none => collectStrings fuel rem2 strings2
          else (strings2, rem1)

/-- `sanitize_json` from `chronicle-core/src/dm/relevance.rs`: after the
first `"evidence":`, if several comma-separated quoted strings follow,
splice them into one `"a; b"` string; otherwise return the input
unchanged. -/
def sanitize_json (text : List Char) : List Char :=
  let evidence_key := "\"evidence\":".toList
  match findSub evidence_key text with
  | some start_idx =>
      let after_key := text.drop (start_idx + evidence_key.length)
      let after_key_trimmed := trimStart after_key
      -- Should start with a quote
      if after_key_trimmed.head? ≠ some '"' then text
      else
        let sr := collectStrings (after_key_trimmed.length + 1)
          after_key_trimmed []
        if sr.1.length > 1 then
          let combined := joinSep "; ".toList sr.1
          text.take (start_idx + evidence_key.length) ++
            " \"".toList ++ combined ++ "\",".toList ++ sr.2
        else text
  | none => text

end Chronicle

namespace Chronicle

/-! ### Shared concrete fixtures for witnesses and counterexamples -/

/-- A small concrete character in the shape `create_sample_fighter`
builds (level-3 fighter, 10 max HP for compact arithmetic). -/
def sampleCharacter : Character :=
  { id := 1, name := "Arthur",
    hit_points := { current := 10, maximum := 10, temporary := 0 },
    hit_dice := { total := [(.d10, 3)], remaining := [(.d10, 1)] },
    death_saves := { successes := 0, failures := 0 },
    conditions := [], features := [], spellcasting := none,
    inventory := { items := [], gold := 15, silver := 0 } }

/-- A world holding `sampleCharacter`, out of combat. -/
def sampleWorld : GameWorld :=
  { player_character := sampleCharacter, combat := none }

/-! ### Hit-point invariants (claims C1 and C10) -/

/-- The part of the spec's hit-point invariant that the code maintains:
`current ≤ maximum` and `0 ≤ temporary`. -/
def hpInv (w : GameWorld) : Prop :=
  w.player_character.hit_points.current ≤ w.player_character.hit_points.maximum ∧
    0 ≤ w.player_character.hit_points.temporary

instance (w : GameWorld) : Decidable (hpInv w) := by
  unfold hpInv
  infer_instance

/-- `take_damage` with a positive amount keeps `current ≤ maximum` and
`0 ≤ temporary`. -/
lemma take_damage_inv (hp : HitPoints) (amount : Int)
    (h1 : hp.current ≤ hp.maximum) (h2 : 0 ≤ hp.temporary)
    (h3 : 0 < amount) :
    (hp.take_damage amount).1.current ≤ (hp.take_damage amount).1.maximum ∧
      0 ≤ (hp.take_damage amount).1.temporary := by
  unfold HitPoints.take_damage
  split_ifs with ht hge <;> dsimp only <;> constructor <;> omega

/-- `heal` keeps `current ≤ maximum` and does not touch `temporary`. -/
lemma heal_inv (hp : HitPoints) (amount : Int) (h2 : 0 ≤ hp.temporary) :
    (hp.heal amount).1.current ≤ (hp.heal amount).1.maximum ∧
      0 ≤ (hp.heal amount).1.temporary := by
  unfold HitPoints.heal
  exact ⟨min_le_right _ _, h2⟩

/-- `add_condition` does not touch hit points. -/
lemma add_condition_hit_points (c : Character) (cond : Condition) (s : String) :
    (c.add_condition cond s).hit_points = c.hit_points := by
  unfold Character.add_condition Character.add_condition_with_duration
  split_ifs <;> rfl

/-- The hit points after an `HpChanged` effect: the damage path for a
negative amount, the heal path otherwise (the follow-up condition and
death-save bookkeeping never touches hit points). -/
lemma apply_effect_HpChanged_hit_points (w : GameWorld) (t : Nat)
    (a nc nm : Int) (dz : Bool) :
    (apply_effect w (.HpChanged t a nc nm dz)).player_character.hit_points =
      if a < 0 then (w.player_character.hit_points.take_damage (-a)).1
      else (w.player_character.hit_points.heal a).1 := by
  dsimp only [apply_effect]
  split_ifs with h1 h2 h3 <;> simp_all [add_condition_hit_points]

/-- A single applied effect preserves the maintained hit-point invariant. -/
lemma apply_effect_hpInv (w : GameWorld) (e : Effect) (h : hpInv w) :
    hpInv (apply_effect w e) := by
  obtain ⟨h1, h2⟩ := h
  cases e with
  | HpChanged target_id amount new_current new_max dropped_to_zero =>
      unfold hpInv
      rw [apply_effect_HpChanged_hit_points]
      split_ifs with ha
      · exact take_damage_inv _ _ h1 h2 (by omega)
      · exact heal_inv _ _ h2
  | ConditionApplied condition source duration_rounds =>
      unfold hpInv
      dsimp only [apply_effect]
      unfold Character.add_condition_with_duration
      split_ifs <;> exact ⟨h1, h2⟩
  | ConditionRemoved condition => exact ⟨h1, h2⟩
  | TurnAdvanced =>
      unfold hpInv
      dsimp only [apply_effect]
      cases w.combat <;> exact ⟨h1, h2⟩
  | SpellSlotUsed level =>
      unfold hpInv
      dsimp only [apply_effect]
      cases w.player_character.spellcasting <;> exact ⟨h1, h2⟩
  | DiceRolled roll purpose => exact ⟨h1, h2⟩
  | ClassResourceUsed a b c => exact ⟨h1, h2⟩
  | DeathSaveFailure failures => exact ⟨h1, h2⟩
  | DeathSavesReset => exact ⟨h1, h2⟩
  | DeathSaveSuccess total_successes => exact ⟨h1, h2⟩
  | Stabilized => exact ⟨h1, h2⟩
  | CharacterDied => exact ⟨h1, h2⟩

/-- C1, counterexample.  The claim asserts `0 ≤ hit_points.current` after
every applied effect list, and in particular that an `HpChanged` damage
effect never leaves `current` below 0.  Applying a single 50-damage
`HpChanged` to a full-health character with 10 maximum HP leaves
`current = -40`: `HitPoints::take_damage` subtracts the excess without
clamping at zero. -/
theorem C1_hp_counterexample :
    (apply_effects sampleWorld
        [.HpChanged 1 (-50) (-40) 10 true]).player_character.hit_points.current
      = -40 ∧
    ¬ (0 ≤ (apply_effects sampleWorld
        [.HpChanged 1 (-50) (-40) 10 true]).player_character.hit_points.current) := by
  constructor
  · rfl
  · decide

/-- C1, amended.  After any list of applied effects, a world that
satisfies `current ≤ maximum ∧ 0 ≤ temporary` still satisfies it: the
upper bound on `current` and the lower bound on `temporary` are
maintained invariants.  (The spec's lower bound `0 ≤ current` is not:
see the counterexample.) -/
theorem C1_hp_invariant (w : GameWorld) (effects : List Effect)
    (h : hpInv w) : hpInv (apply_effects w effects) := by
  induction effects generalizing w with
  | nil => exact h
  | cons e rest ih => exact ih _ (apply_effect_hpInv w e h)

/-- C1, witness: the amended invariant applied to the sample world and a
concrete damage-then-heal effect list. -/
theorem C1_hp_invariant_witness :
    hpInv (apply_effects sampleWorld
      [.HpChanged 1 (-50) (-40) 10 true, .HpChanged 1 30 10 10 false]) :=
  C1_hp_invariant sampleWorld
    [.HpChanged 1 (-50) (-40) 10 true, .HpChanged 1 30 10 10 false]
    (by decide)

/-- C10: temporary hit points absorb damage first (`current` drops only
by the excess over the temporary pool), the temporary pool never goes
negative, and `add_temp_hp` takes the maximum of the existing and new
amounts instead of adding them. -/
theorem C10_temp_hp_absorbs_first (hp : HitPoints) (amount grant : Int)
    (htemp : 0 ≤ hp.temporary) (hamt : 0 ≤ amount) :
    (hp.take_damage amount).1.current = hp.current - max (amount - hp.temporary) 0 ∧
    (hp.take_damage amount).1.temporary = max (hp.temporary - amount) 0 ∧
    0 ≤ (hp.take_damage amount).1.temporary ∧
    (hp.add_temp_hp grant).temporary = max hp.temporary grant := by
  unfold HitPoints.take_damage HitPoints.add_temp_hp
  split_ifs with ht hge <;> dsimp only <;>
    refine ⟨by omega, by omega, by omega, rfl⟩

/-- C10, witness: 7 damage against 5 temporary HP reaches `current` for
2 points only, and granting 3 temp HP over 5 keeps 5. -/
theorem C10_temp_hp_witness :
    ((HitPoints.mk 20 20 5).take_damage 7).1.current = 20 - max (7 - 5) 0 ∧
    ((HitPoints.mk 20 20 5).take_damage 7).1.temporary = max (5 - 7) 0 ∧
    0 ≤ ((HitPoints.mk 20 20 5).take_damage 7).1.temporary ∧
    ((HitPoints.mk 20 20 5).add_temp_hp 3).temporary = max 5 3 :=
  C10_temp_hp_absorbs_first (HitPoints.mk 20 20 5) 7 3 (by decide) (by decide)

end Chronicle

namespace Chronicle

/-! ### Conditions and discriminant identity (claim C3) -/

/-- At most one active condition per discriminant. -/
def discrUnique (l : List ActiveCondition) : Prop :=
  l.Pairwise (fun a b => a.condition.discr ≠ b.condition.discr)

/-- A world whose character is at exhaustion level 1. -/
def exhWorld : GameWorld :=
  { player_character :=
      { sampleCharacter with
        conditions :=
          [{ condition := .Exhaustion 1, source := "travel",
             duration_rounds := none }] },
    combat := none }

/-- C3, counterexample.  The claim says `Exhaustion(2)` *replaces*
`Exhaustion(1)` and that `Exhaustion(0)` is never stored.  In the code,
`add_condition_with_duration` *skips* when a condition with the same
discriminant is present, so the character keeps `Exhaustion(1)`; and
applying `Exhaustion(0)` to a character with no exhaustion stores it. -/
theorem C3_condition_replace_counterexample :
    (apply_effect exhWorld
        (.ConditionApplied (.Exhaustion 2) "forced march" none)).player_character.conditions
      = [{ condition := .Exhaustion 1, source := "travel",
           duration_rounds := none }] ∧
    (apply_effect sampleWorld
        (.ConditionApplied (.Exhaustion 0) "glitch" none)).player_character.conditions
      = [{ condition := .Exhaustion 0, source := "glitch",
           duration_rounds := none }] := by
  constructor <;> decide

/-- C3, amended.  `ConditionApplied` uses discriminant-based identity to
*skip*, not replace: when a condition with the same discriminant is
already present the effect leaves the world unchanged (so `Exhaustion(1)`
survives an applied `Exhaustion(2)`); and applying the effect preserves
discriminant-uniqueness of the condition list. -/
theorem C3_condition_discriminant_identity (w : GameWorld) (cond : Condition)
    (src : String) (dur : Option Nat) :
    (w.player_character.has_condition cond = true →
      apply_effect w (.ConditionApplied cond src dur) = w) ∧
    (discrUnique w.player_character.conditions →
      discrUnique
        (apply_effect w (.ConditionApplied cond src dur)).player_character.conditions) := by
  constructor
  · intro h
    dsimp only [apply_effect]
    unfold Character.add_condition_with_duration
    rw [if_pos h]
  · intro h
    dsimp only [apply_effect]
    unfold Character.add_condition_with_duration
    split_ifs with hc
    · exact h
    · dsimp only
      have hall : ∀ x ∈ w.player_character.conditions,
          x.condition.discr ≠ cond.discr := by
        unfold Character.has_condition at hc
        simpa using hc
      unfold discrUnique at h ⊢
      rw [List.pairwise_append]
      refine ⟨h, List.pairwise_singleton _ _, ?_⟩
      intro a ha b hb
      simp only [List.mem_singleton] at hb
      subst hb
      exact hall a ha

/-- C3, witness: applying `Exhaustion(2)` over `Exhaustion(1)` is the
identity on the world. -/
theorem C3_condition_identity_witness :
    apply_effect exhWorld (.ConditionApplied (.Exhaustion 2) "forced march" none)
      = exhWorld :=
  (C3_condition_discriminant_identity exhWorld (.Exhaustion 2) "forced march"
    none).1 (by decide)

/-! ### Death and subsequent healing (claim C4) -/

/-- A world whose character has dropped to 0 HP and failed three death
saves (the state in which `CharacterDied` is emitted). -/
def deadWorld : GameWorld :=
  { player_character :=
      { sampleCharacter with
        hit_points := { current := 0, maximum := 10, temporary := 0 },
        death_saves := { successes := 0, failures := 3 },
        conditions :=
          [{ condition := .Unconscious, source := "Dropped to 0 HP",
             duration_rounds := none }] },
    combat := none }

/-- C4, counterexample.  The claim says a `Heal` applied after
`CharacterDied` leaves `hit_points.current` unchanged.  In the code the
`CharacterDied` arm does nothing and the `HpChanged` arm heals
normally, so a +5 heal on the dead character raises `current` from 0
to 5 (and, since the character rises above 0, even resets the death
saves and removes Unconscious). -/
theorem C4_heal_after_death_counterexample :
    (apply_effects deadWorld
        [.CharacterDied, .HpChanged 1 5 5 10 false]).player_character.hit_points.current
      = 5 ∧
    (apply_effects deadWorld
        [.CharacterDied, .HpChanged 1 5 5 10 false]).player_character.hit_points.current
      ≠ deadWorld.player_character.hit_points.current := by
  constructor <;> decide

/-- C4, amended.  Applying `CharacterDied` leaves the world unchanged
(death is tracked only through the emitted effect), and a subsequent
non-negative `HpChanged` is applied as a normal heal: `current` becomes
`min (current + amount) maximum`. -/
theorem C4_died_is_noop_heal_applies (w : GameWorld) (t : Nat)
    (a nc nm : Int) (h : 0 ≤ a) :
    apply_effect w .CharacterDied = w ∧
    (apply_effects w
        [.CharacterDied, .HpChanged t a nc nm false]).player_character.hit_points.current
      = min (w.player_character.hit_points.current + a)
          w.player_character.hit_points.maximum := by
  refine ⟨rfl, ?_⟩
  show (apply_effect (apply_effect w .CharacterDied)
      (.HpChanged t a nc nm false)).player_character.hit_points.current = _
  have hd : apply_effect w .CharacterDied = w := rfl
  rw [hd]
  have := apply_effect_HpChanged_hit_points w t a nc nm false
  rw [this, if_neg (by omega)]
  rfl

/-- C4, witness: the amended statement at the concrete dead world with a
+5 heal. -/
theorem C4_died_noop_witness :
    apply_effect deadWorld .CharacterDied = deadWorld ∧
    (apply_effects deadWorld
        [.CharacterDied, .HpChanged 1 5 5 10 false]).player_character.hit_points.current
      = min (deadWorld.player_character.hit_points.current + 5)
          deadWorld.player_character.hit_points.maximum :=
  C4_died_is_noop_heal_applies deadWorld 1 5 5 10 (by decide)

end Chronicle

namespace Chronicle

/-! ### Divine Smite (claim C2) -/

/-- A paladin-shaped world: 3 level-1 slots, 2 level-2 and 2 level-3
slots, none used (the `create_sample_paladin` shape plus the extra
slots its tests grant). -/
def paladinWorld : GameWorld :=
  { player_character :=
      { sampleCharacter with
        spellcasting := some
          { spell_slots :=
              { slots :=
                  [{ total := 3, used := 0 }, { total := 2, used := 0 },
                   { total := 2, used := 0 }, { total := 0, used := 0 },
                   { total := 0, used := 0 }, { total := 0, used := 0 },
                   { total := 0, used := 0 }, { total := 0, used := 0 },
                   { total := 0, used := 0 }] } } },
    combat := none }

/-- The same world with every level-1 slot already used. -/
def paladinWorldSpent : GameWorld :=
  { player_character :=
      { sampleCharacter with
        spellcasting := some
          { spell_slots :=
              { slots :=
                  [{ total := 3, used := 3 }, { total := 0, used := 0 },
                   { total := 0, used := 0 }, { total := 0, used := 0 },
                   { total := 0, used := 0 }, { total := 0, used := 0 },
                   { total := 0, used := 0 }, { total := 0, used := 0 },
                   { total := 0, used := 0 }] } } },
    combat := none }

/-- C2.  Resolving Divine Smite with an available level-1 slot emits the
2d8 damage roll (and the 5d8 cap shows up at level 3 versus undead),
and returns an *empty* effect list when no slot of the level is
available — but the successful resolution's effects are only
`DiceRolled` and `ClassResourceUsed`, neither of which changes any
spell slot: applying them returns the world unchanged, with
`slots[0].used` still 0, although the narrative claims the slot was
expended.  The claimed `SpellSlotUsed` consumption is never emitted. -/
theorem C2_divine_smite_consumes_no_slot :
    (resolve_use_divine_smite paladinWorld 1 false 9).effects
      = [.DiceRolled { original := "2d8", total := 9 } "Divine Smite damage",
         .ClassResourceUsed "Arthur" "Divine Smite"
           "Used level 1 slot for smite"] ∧
    apply_effects paladinWorld
        (resolve_use_divine_smite paladinWorld 1 false 9).effects
      = paladinWorld ∧
    (resolve_use_divine_smite paladinWorld 3 true 20).effects.head?
      = some (.DiceRolled { original := "5d8", total := 20 }
          "Divine Smite damage") ∧
    (resolve_use_divine_smite paladinWorldSpent 1 false 9).effects = [] := by
  refine ⟨?_, ?_, ?_, ?_⟩ <;> decide

/-! ### Inventory stacking (claim C6) -/

/-- 50 feet of hempen rope, an `Adventuring` (stackable) item. -/
def ropeItem : Item :=
  { name := "Rope", quantity := 1, item_type := .Adventuring }

/-- The same gear with the name differing only in ASCII case. -/
def ropeItemLower : Item :=
  { name := "rope", quantity := 1, item_type := .Adventuring }

/-- C6, counterexample.  The claim says stackable items whose names are
equal up to ASCII case stack into a single entry.  `add_item` compares
names with `==` (exact equality), so "Rope" and "rope" stay two
separate entries. -/
theorem C6_case_stacking_counterexample :
    (((Inventory.mk [] 0 0).add_item ropeItem).add_item ropeItemLower).items
      = [ropeItem, ropeItemLower] ∧
    (((Inventory.mk [] 0 0).add_item ropeItem).add_item ropeItemLower).items.length
      = 2 := by
  constructor <;> decide

/-- `stackFirst` finds nothing when no entry has exactly the name. -/
lemma stackFirst_not_found (name : String) (qty : Nat) (l : List Item)
    (h : ∀ i ∈ l, i.name ≠ name) : stackFirst name qty l = (l, false) := by
  induction l with
  | nil => rfl
  | cons i rest ih =>
      unfold stackFirst
      rw [if_neg (h i (List.mem_cons_self i rest))]
      rw [ih (fun j hj => h j (List.mem_cons_of_mem i hj))]

/-- `stackFirst` bumps the first exactly-named entry and leaves the rest
of the list unchanged. -/
lemma stackFirst_found (name : String) (qty : Nat) (pre : List Item)
    (e : Item) (post : List Item)
    (hpre : ∀ i ∈ pre, i.name ≠ name) (he : e.name = name) :
    stackFirst name qty (pre ++ e :: post)
      = (pre ++ { e with quantity := e.quantity + qty } :: post, true) := by
  induction pre with
  | nil =>
      simp only [List.nil_append, stackFirst]
      rw [if_pos he]
  | cons i rest ih =>
      simp only [List.cons_append, stackFirst]
      rw [if_neg (hpre i (List.mem_cons_self i rest))]
      simp only [List.append_eq,
        ih (fun j hj => hpre j (List.mem_cons_of_mem i hj))]

/-- C6, amended.  `add_item` stacks by *exact* name equality, not up to
ASCII case: a non-stackable item, or a stackable item with no exactly
equal name in the inventory, is appended at the end (preserving
insertion order); a stackable item whose exact name matches an entry
adds its quantity to the first such entry, leaving all other entries
in place. -/
theorem C6_add_item_exact_name_stacking (inv : Inventory) (item : Item) :
    (item.is_stackable = false →
      (inv.add_item item).items = inv.items ++ [item]) ∧
    ((∀ i ∈ inv.items, i.name ≠ item.name) →
      (inv.add_item item).items = inv.items ++ [item]) ∧
    (∀ pre e post, item.is_stackable = true →
      inv.items = pre ++ e :: post → e.name = item.name →
      (∀ i ∈ pre, i.name ≠ item.name) →
      (inv.add_item item).items
        = pre ++ { e with quantity := e.quantity + item.quantity } :: post) := by
  refine ⟨?_, ?_, ?_⟩
  · intro h
    unfold Inventory.add_item
    rw [h]
    rfl
  · intro h
    unfold Inventory.add_item
    split_ifs with hs
    · rw [stackFirst_not_found item.name item.quantity inv.items h]
      simp
    · rfl
  · intro pre e post hs hsplit he hpre
    unfold Inventory.add_item
    rw [hs]
    simp only [if_true]
    rw [hsplit, stackFirst_found item.name item.quantity pre e post hpre he]
    simp

/-- C6, witness: a second healing potion (quantity 2) merges into the
existing stack of 1, giving one entry of quantity 3. -/
theorem C6_add_item_witness :
    ((Inventory.mk [Item.mk "Healing Potion" 1 .Potion] 0 0).add_item
        (Item.mk "Healing Potion" 2 .Potion)).items
      = [Item.mk "Healing Potion" 3 .Potion] :=
  (C6_add_item_exact_name_stacking
      (Inventory.mk [Item.mk "Healing Potion" 1 .Potion] 0 0)
      (Item.mk "Healing Potion" 2 .Potion)).2.2
    [] (Item.mk "Healing Potion" 1 .Potion) [] (by decide) rfl rfl
    (by intro i hi; cases hi)

end Chronicle

namespace Chronicle

/-! ### Turn advancement (claim C8) -/

/-- `tickCondition` keeps a condition with no duration unchanged. -/
lemma tickCondition_none (c : ActiveCondition) (h : c.duration_rounds = none) :
    tickCondition c = some c := by
  unfold tickCondition
  rw [h]

/-- `tickCondition` decrements a duration of at least 2 by one. -/
lemma tickCondition_decrement (c : ActiveCondition) (d : Nat)
    (h : c.duration_rounds = some d) (hd : 2 ≤ d) :
    tickCondition c = some { c with duration_rounds := some (d - 1) } := by
  unfold tickCondition
  rw [h]
  dsimp only
  rw [if_pos (show d > 0 by omega), if_pos (show d - 1 > 0 by omega)]

/-- Every surviving condition either had no duration, or had duration
`d2 + 1 ≥ 2` and now shows `d2 ≥ 1`. -/
lemma tickCondition_inverse (a b : ActiveCondition) (h : tickCondition a = some b) :
    (b.duration_rounds = none ∧ a = b) ∨
    (∃ d2, b.duration_rounds = some d2 ∧ 1 ≤ d2 ∧
      a = { b with duration_rounds := some (d2 + 1) }) := by
  unfold tickCondition at h
  cases hda : a.duration_rounds with
  | none =>
      rw [hda] at h
      cases h
      exact Or.inl ⟨hda, rfl⟩
  | some d =>
      rw [hda] at h
      dsimp only at h
      cases d with
      | zero => simp at h
      | succ d3 =>
          rw [if_pos (Nat.succ_pos d3)] at h
          by_cases h2 : d3 + 1 - 1 > 0
          · rw [if_pos h2] at h
            cases h
            refine Or.inr ⟨d3, by simp, by omega, ?_⟩
            cases a with
            | mk ac asrc adur =>
                simp only at hda ⊢
                rw [hda]
          · rw [if_neg h2] at h
            cases h

/-- C8.  Applying `TurnAdvanced` with combat active advances
`turn_index` by one, wrapping to 0 and incrementing `round` when the
index passes the end of the combatant list, clears the per-turn
trackers (sneak-attack-used, attacks-this-turn), and rewrites the
condition list so that: conditions without a duration survive
unchanged, a duration `d ≥ 2` becomes `d - 1`, and every surviving
timed condition has a positive remaining duration obtained from a
condition one round longer (durations 0 and 1 are pruned). -/
theorem C8_turn_advanced_decrements (w : GameWorld) (c : CombatState)
    (h : w.combat = some c) :
    ∃ c2, (apply_effect w .TurnAdvanced).combat = some c2 ∧
      (c.turn_index + 1 < c.combatants.length →
        c2.turn_index = c.turn_index + 1 ∧ c2.round = c.round) ∧
      (c.combatants.length ≤ c.turn_index + 1 →
        c2.turn_index = 0 ∧ c2.round = c.round + 1) ∧
      c2.combatants = c.combatants ∧
      c2.sneak_attack_used = [] ∧ c2.attacks_this_turn = [] ∧
      (∀ ac ∈ w.player_character.conditions, ac.duration_rounds = none →
        ac ∈ (apply_effect w .TurnAdvanced).player_character.conditions) ∧
      (∀ ac ∈ w.player_character.conditions, ∀ d, ac.duration_rounds = some d →
        2 ≤ d →
        { ac with duration_rounds := some (d - 1) }
          ∈ (apply_effect w .TurnAdvanced).player_character.conditions) ∧
      (∀ ac2 ∈ (apply_effect w .TurnAdvanced).player_character.conditions,
        (ac2.duration_rounds = none → ac2 ∈ w.player_character.conditions) ∧
        (∀ d2, ac2.duration_rounds = some d2 → 1 ≤ d2 ∧
          { ac2 with duration_rounds := some (d2 + 1) }
            ∈ w.player_character.conditions)) := by
  refine ⟨c.next_turn, ?_, ?_, ?_, ?_, ?_, ?_, ?_, ?_, ?_⟩
  · dsimp only [apply_effect]
    rw [h]
  · intro hlt
    dsimp only [CombatState.next_turn]
    rw [if_neg (by omega)]
    exact ⟨rfl, rfl⟩
  · intro hge
    dsimp only [CombatState.next_turn]
    rw [if_pos (by omega)]
    exact ⟨rfl, rfl⟩
  · dsimp only [CombatState.next_turn]
    split_ifs <;> rfl
  · rfl
  · rfl
  · intro ac hac hdur
    dsimp only [apply_effect]
    rw [h]
    dsimp only
    exact List.mem_filterMap.mpr ⟨ac, hac, tickCondition_none ac hdur⟩
  · intro ac hac d hdur hd
    dsimp only [apply_effect]
    rw [h]
    dsimp only
    exact List.mem_filterMap.mpr ⟨ac, hac, tickCondition_decrement ac d hdur hd⟩
  · intro ac2 hac2
    dsimp only [apply_effect] at hac2
    rw [h] at hac2
    dsimp only at hac2
    obtain ⟨a, ha, hta⟩ := List.mem_filterMap.mp hac2
    rcases tickCondition_inverse a ac2 hta with ⟨hnone, heq⟩ | ⟨d2, hdr, hd2, heq⟩
    · constructor
      · intro _
        rw [← heq]
        exact ha
      · intro d2 hd2
        rw [hnone] at hd2
        cases hd2
    · constructor
      · intro hn
        rw [hn] at hdr
        cases hdr
      · intro d3 hd3
        rw [hdr] at hd3
        cases hd3
        exact ⟨hd2, heq ▸ ha⟩

/-- A two-combatant combat state on the second (last) turn of round 1. -/
def sampleCombat : CombatState :=
  { active := true, round := 1, turn_index := 1,
    combatants :=
      [{ id := 1, initiative := 15, is_player := true, current_hp := 10,
         max_hp := 10 },
       { id := 2, initiative := 8, is_player := false, current_hp := 7,
         max_hp := 7 }],
    sneak_attack_used := [1], attacks_this_turn := [(1, 2)] }

/-- A world in combat with a timed and an untimed condition. -/
def combatWorld : GameWorld :=
  { player_character :=
      { sampleCharacter with
        conditions :=
          [{ condition := .Poisoned, source := "venom", duration_rounds := some 3 },
           { condition := .Prone, source := "shove", duration_rounds := none }] },
    combat := some sampleCombat }

/-- C8, witness: the theorem instantiated at the concrete combat world. -/
theorem C8_turn_advanced_witness :
    ∃ c2, (apply_effect combatWorld .TurnAdvanced).combat = some c2 ∧
      (sampleCombat.turn_index + 1 < sampleCombat.combatants.length →
        c2.turn_index = sampleCombat.turn_index + 1 ∧ c2.round = sampleCombat.round) ∧
      (sampleCombat.combatants.length ≤ sampleCombat.turn_index + 1 →
        c2.turn_index = 0 ∧ c2.round = sampleCombat.round + 1) ∧
      c2.combatants = sampleCombat.combatants ∧
      c2.sneak_attack_used = [] ∧ c2.attacks_this_turn = [] ∧
      (∀ ac ∈ combatWorld.player_character.conditions, ac.duration_rounds = none →
        ac ∈ (apply_effect combatWorld .TurnAdvanced).player_character.conditions) ∧
      (∀ ac ∈ combatWorld.player_character.conditions, ∀ d,
        ac.duration_rounds = some d → 2 ≤ d →
        { ac with duration_rounds := some (d - 1) }
          ∈ (apply_effect combatWorld .TurnAdvanced).player_character.conditions) ∧
      (∀ ac2 ∈ (apply_effect combatWorld .TurnAdvanced).player_character.conditions,
        (ac2.duration_rounds = none → ac2 ∈ combatWorld.player_character.conditions) ∧
        (∀ d2, ac2.duration_rounds = some d2 → 1 ≤ d2 ∧
          { ac2 with duration_rounds := some (d2 + 1) }
            ∈ combatWorld.player_character.conditions)) :=
  C8_turn_advanced_decrements combatWorld sampleCombat rfl

end Chronicle

namespace Chronicle

/-! ### Combat ordering and turn-index bound (claim C5) -/

/-- Combatant list sorted by initiative, descending. -/
def sortedDesc (l : List Combatant) : Prop :=
  l.Pairwise (fun a b => b.initiative ≤ a.initiative)

lemma mem_insertByInit (b c : Combatant) (l : List Combatant) :
    b ∈ insertByInit c l ↔ b = c ∨ b ∈ l := by
  induction l with
  | nil => simp [insertByInit]
  | cons x xs ih =>
      unfold insertByInit
      split_ifs with h
      · simp [or_comm, or_left_comm]
      · simp [ih, or_comm, or_left_comm]

lemma sortedDesc_insertByInit (c : Combatant) (l : List Combatant)
    (h : sortedDesc l) : sortedDesc (insertByInit c l) := by
  induction l with
  | nil => simp [insertByInit, sortedDesc]
  | cons x xs ih =>
      unfold insertByInit
      rw [sortedDesc] at h
      rw [List.pairwise_cons] at h
      obtain ⟨hx, hxs⟩ := h
      split_ifs with hgt
      · rw [sortedDesc, List.pairwise_cons]
        refine ⟨?_, ?_⟩
        · intro b hb
          rcases List.mem_cons.mp hb with rfl | hb2
          · omega
          · have := hx b hb2
            omega
        · rw [List.pairwise_cons]
          exact ⟨hx, hxs⟩
      · rw [sortedDesc, List.pairwise_cons]
        refine ⟨?_, ih hxs⟩
        intro b hb
        rcases (mem_insertByInit b c xs).mp hb with rfl | hb2
        · omega
        · exact hx b hb2

lemma insertByInit_all_ge (c : Combatant) (l : List Combatant)
    (h : ∀ y ∈ l, c.initiative ≤ y.initiative) :
    insertByInit c l = l ++ [c] := by
  induction l with
  | nil => rfl
  | cons x xs ih =>
      unfold insertByInit
      rw [if_neg (by have := h x (List.mem_cons_self x xs); omega)]
      rw [ih (fun y hy => h y (List.mem_cons_of_mem x hy))]
      rfl

/-- A stable sort is the identity on an already-sorted list. -/
lemma sortByInitDesc_sorted_id (l : List Combatant) (h : sortedDesc l) :
    sortByInitDesc l = l := by
  induction l using List.reverseRecOn with
  | nil => rfl
  | append_singleton xs x ih =>
      unfold sortByInitDesc
      rw [List.foldl_append]
      have hs : sortedDesc xs ∧ ∀ y ∈ xs, x.initiative ≤ y.initiative := by
        rw [sortedDesc, List.pairwise_append] at h
        refine ⟨h.1, ?_⟩
        intro y hy
        exact h.2.2 y hy x (List.mem_singleton_self x)
      show insertByInit x (sortByInitDesc xs) = xs ++ [x]
      rw [ih hs.1, insertByInit_all_ge x xs hs.2]

lemma sortByInitDesc_snoc (l : List Combatant) (c : Combatant) :
    sortByInitDesc (l ++ [c]) = insertByInit c (sortByInitDesc l) := by
  unfold sortByInitDesc
  rw [List.foldl_append]
  rfl

lemma length_insertByInit (c : Combatant) (l : List Combatant) :
    (insertByInit c l).length = l.length + 1 := by
  induction l with
  | nil => rfl
  | cons x xs ih =>
      unfold insertByInit
      split_ifs <;> simp [ih]

lemma filter_eq_nil_of_lt (l : List Combatant) (w v : Int)
    (h : ∀ y ∈ l, y.initiative ≤ w) (hw : w < v) :
    l.filter (fun x => x.initiative == v) = [] := by
  rw [List.filter_eq_nil_iff]
  intro y hy
  simp only [beq_iff_eq]
  have := h y hy
  omega

/-- Stability of the insertion: for every initiative value, the new
element lands after all sorted elements with that value. -/
lemma filter_insertByInit (c : Combatant) (l : List Combatant) (v : Int)
    (h : sortedDesc l) :
    (insertByInit c l).filter (fun x => x.initiative == v)
      = if c.initiative = v then
          l.filter (fun x => x.initiative == v) ++ [c]
        else l.filter (fun x => x.initiative == v) := by
  induction l with
  | nil =>
      simp only [insertByInit, List.filter_nil]
      by_cases hv : c.initiative = v
      · simp [List.filter_cons, hv]
      · simp [List.filter_cons, hv]
  | cons x xs ih =>
      rw [sortedDesc, List.pairwise_cons] at h
      obtain ⟨hx, hxs⟩ := h
      unfold insertByInit
      by_cases hgt : c.initiative > x.initiative
      · rw [if_pos hgt]
        have hxnil : ∀ _ : x.initiative < v,
            (x :: xs).filter (fun y => y.initiative == v) = [] := by
          intro hlt
          refine filter_eq_nil_of_lt (x :: xs) x.initiative v ?_ hlt
          intro y hy
          rcases List.mem_cons.mp hy with rfl | hy2
          · omega
          · exact hx y hy2
        by_cases hv : c.initiative = v
        · rw [if_pos hv, List.filter_cons, hxnil (by omega)]
          simp [hv]
        · rw [if_neg hv, List.filter_cons]
          simp [hv]
      · rw [if_neg hgt]
        rw [List.filter_cons, List.filter_cons, ih hxs]
        by_cases hv : c.initiative = v
        all_goals by_cases hxv : x.initiative = v
        all_goals simp [hxv, hv]

/-- The operations a combat state undergoes while combat is active. -/
inductive CombatOp where
  | add (c : Combatant)
  | next

/-- Run a sequence of combat operations. -/
def runOps (s : CombatState) (ops : List CombatOp) : CombatState :=
  ops.foldl
    (fun s op =>
      match op with
      | .add c => s.add_combatant c
      | .next => s.next_turn) s

/-- The combatants inserted by a sequence of operations, in insertion
order. -/
def addsOf (ops : List CombatOp) : List Combatant :=
  ops.filterMap
    (fun op =>
      match op with
      | .add c => some c
      | .next => none)

/-- The combat-state invariant: sorted descending, stable with respect
to the insertion order, `turn_index = 0` on an empty list, and
`turn_index < length` on a nonempty one. -/
def combatInv (s : CombatState) (adds : List Combatant) : Prop :=
  sortedDesc s.combatants ∧
  (∀ v : Int, s.combatants.filter (fun c => c.initiative == v)
      = adds.filter (fun c => c.initiative == v)) ∧
  (s.combatants = [] → s.turn_index = 0) ∧
  (s.combatants ≠ [] → s.turn_index < s.combatants.length)

lemma combatInv_add (s : CombatState) (adds : List Combatant) (c : Combatant)
    (h : combatInv s adds) : combatInv (s.add_combatant c) (adds ++ [c]) := by
  obtain ⟨h1, h2, h3, h4⟩ := h
  have hkey : sortByInitDesc (s.combatants ++ [c]) = insertByInit c s.combatants := by
    rw [sortByInitDesc_snoc, sortByInitDesc_sorted_id s.combatants h1]
  unfold CombatState.add_combatant combatInv
  rw [hkey]
  dsimp only
  refine ⟨sortedDesc_insertByInit c s.combatants h1, ?_, ?_, ?_⟩
  · intro v
    rw [filter_insertByInit c s.combatants v h1, List.filter_append, h2 v]
    by_cases hv : c.initiative = v
    · rw [if_pos hv]
      simp [hv]
    · rw [if_neg hv]
      simp [hv]
  · intro hemp
    have := length_insertByInit c s.combatants
    rw [hemp] at this
    simp at this
  · intro _
    rw [length_insertByInit c s.combatants]
    by_cases hemp : s.combatants = []
    · rw [h3 hemp]
      omega
    · have := h4 hemp
      omega

lemma combatInv_next (s : CombatState) (adds : List Combatant)
    (h : combatInv s adds) : combatInv s.next_turn adds := by
  obtain ⟨h1, h2, h3, h4⟩ := h
  unfold CombatState.next_turn combatInv
  dsimp only
  split_ifs with hge
  · refine ⟨h1, h2, fun _ => rfl, ?_⟩
    intro hne
    show 0 < s.combatants.length
    exact List.length_pos.mpr (by simpa using hne)
  · refine ⟨h1, h2, ?_, ?_⟩
    · intro hemp
      have hnil : s.combatants = [] := hemp
      rw [hnil] at hge
      simp at hge
    · intro _
      show s.turn_index + 1 < s.combatants.length
      omega

lemma combatInv_runOps (ops : List CombatOp) (s : CombatState)
    (adds : List Combatant) (h : combatInv s adds) :
    combatInv (runOps s ops) (adds ++ addsOf ops) := by
  induction ops generalizing s adds with
  | nil =>
      simpa [runOps, addsOf] using h
  | cons op rest ih =>
      cases op with
      | add c =>
          have step := combatInv_add s adds c h
          have := ih (s.add_combatant c) (adds ++ [c]) step
          simpa [runOps, addsOf, List.append_assoc] using this
      | next =>
          have step := combatInv_next s adds h
          have := ih s.next_turn adds step
          simpa [runOps, addsOf] using this

/-- C5, counterexample.  `CombatState::new` is active with an empty
combatant list and `turn_index = 0`, so `turn_index < combatants.len()`
is false immediately after combat starts, contradicting the claim that
the bound holds "including immediately after combat starts". -/
theorem C5_turn_index_counterexample :
    CombatState.new.active = true ∧
    ¬ (CombatState.new.turn_index < CombatState.new.combatants.length) := by
  constructor <;> decide

/-- C5, amended.  After any sequence of `add_combatant` / `next_turn`
operations from a fresh combat state: the combatant list is sorted by
initiative descending and is stable over insertion order (for every
initiative value, the entries with that value appear exactly in
insertion order), and `turn_index < combatants.len()` holds whenever
the combatant list is nonempty (on an empty list `turn_index` is 0 and
the bound fails). -/
theorem C5_sorted_and_turn_bound (ops : List CombatOp) :
    sortedDesc (runOps CombatState.new ops).combatants ∧
    (∀ v : Int, (runOps CombatState.new ops).combatants.filter
        (fun c => c.initiative == v)
      = (addsOf ops).filter (fun c => c.initiative == v)) ∧
    ((runOps CombatState.new ops).combatants ≠ [] →
      (runOps CombatState.new ops).turn_index
        < (runOps CombatState.new ops).combatants.length) := by
  have h0 : combatInv CombatState.new [] := by
    refine ⟨List.Pairwise.nil, fun v => rfl, fun _ => rfl, fun hne => ?_⟩
    simp [CombatState.new] at hne
  have h := combatInv_runOps ops CombatState.new [] h0
  rw [List.nil_append] at h
  exact ⟨h.1, h.2.1, h.2.2.2⟩

/-- C5, witness: two insertions (initiatives 8 then 15) and one turn
advance keep the turn index under the combatant count. -/
theorem C5_sorted_witness :
    (runOps CombatState.new
        [CombatOp.add
          { id := 2, initiative := 8, is_player := false, current_hp := 7,
            max_hp := 7 },
         CombatOp.add
          { id := 1, initiative := 15, is_player := true, current_hp := 10,
            max_hp := 10 },
         CombatOp.next]).turn_index
      < (runOps CombatState.new
        [CombatOp.add
          { id := 2, initiative := 8, is_player := false, current_hp := 7,
            max_hp := 7 },
         CombatOp.add
          { id := 1, initiative := 15, is_player := true, current_hp := 10,
            max_hp := 10 },
         CombatOp.next]).combatants.length :=
  (C5_sorted_and_turn_bound
    [CombatOp.add
      { id := 2, initiative := 8, is_player := false, current_hp := 7,
        max_hp := 7 },
     CombatOp.add
      { id := 1, initiative := 15, is_player := true, current_hp := 10,
        max_hp := 10 },
     CombatOp.next]).2.2 (by decide)

end Chronicle

namespace Chronicle

/-! ### Long rest (claim C7) -/


/-- After a long rest, hit points are the old record with `current`
set to `maximum`. -/
lemma alr_hit_points (c : Character) :
    (apply_long_rest c).hit_points
      = { c.hit_points with current := c.hit_points.maximum } := by
  unfold apply_long_rest
  cases c.spellcasting <;> rfl

/-- The condition pipeline of `apply_long_rest`: drop Unconscious,
reduce positive exhaustion by one, drop `Exhaustion(0)`. -/
lemma alr_conditions (c : Character) :
    (apply_long_rest c).conditions
      = ((c.conditions.filter
            (fun ac => ac.condition ≠ .Unconscious)).map
          (fun ac =>
            match ac.condition with
            | .Exhaustion level =>
                if level > 0 then { ac with condition := .Exhaustion (level - 1) }
                else ac
            | _ => ac)).filter
          (fun ac => ac.condition ≠ .Exhaustion 0) := by
  unfold apply_long_rest
  cases c.spellcasting <;> rfl

/-- A long rest recovers hit dice via `HitDice::recover_half`. -/
lemma alr_hit_dice (c : Character) :
    (apply_long_rest c).hit_dice = c.hit_dice.recover_half := by
  unfold apply_long_rest
  cases c.spellcasting <;> rfl

/-- A long rest recovers all spell slots when spellcasting is present. -/
lemma alr_spellcasting (c : Character) (sc : SpellcastingData)
    (h : c.spellcasting = some sc) :
    (apply_long_rest c).spellcasting
      = some { sc with spell_slots := sc.spell_slots.recover_all } := by
  unfold apply_long_rest
  rw [h]

/-- A long rest resets every recharging feature use-counter. -/
lemma alr_features (c : Character) :
    (apply_long_rest c).features
      = c.features.map (fun f =>
          match f.uses with
          | some u =>
              match u.recharge with
              | .LongRest | .ShortRest =>
                  { f with uses := some { u with current := u.maximum } }
          | none => f) := by
  unfold apply_long_rest
  cases c.spellcasting <;> rfl

/-- Updating one key leaves lookups of other keys unchanged. -/
lemma lookup_updateAssoc_ne (k k2 : DieType) (f : Nat → Nat)
    (l : List (DieType × Nat)) (h : k ≠ k2) :
    lookupAssoc k2 (updateAssoc k f l) = lookupAssoc k2 l := by
  induction l with
  | nil => rfl
  | cons kv rest ih =>
      obtain ⟨k0, v0⟩ := kv
      simp only [updateAssoc]
      by_cases h1 : k0 = k
      · rw [if_pos h1]
        simp only [lookupAssoc]
        rw [if_neg (h1 ▸ h : ¬ k0 = k2), if_neg (h1 ▸ h : ¬ k0 = k2)]
      · rw [if_neg h1]
        simp only [lookupAssoc]
        by_cases h2 : k0 = k2
        · rw [if_pos h2, if_pos h2]
        · rw [if_neg h2, if_neg h2]
          exact ih

/-- Updating a bound key applies the function to its value. -/
lemma lookup_updateAssoc_eq (k : DieType) (f : Nat → Nat)
    (l : List (DieType × Nat)) (r : Nat) (h : lookupAssoc k l = some r) :
    lookupAssoc k (updateAssoc k f l) = some (f r) := by
  induction l with
  | nil => cases h
  | cons kv rest ih =>
      obtain ⟨k0, v0⟩ := kv
      simp only [lookupAssoc] at h
      simp only [updateAssoc]
      by_cases h1 : k0 = k
      · rw [if_pos h1]
        simp only [lookupAssoc]
        rw [if_pos h1] at h ⊢
        cases h
        rfl
      · rw [if_neg h1]
        simp only [lookupAssoc]
        rw [if_neg h1] at h ⊢
        exact ih h

/-- The recovery fold does not touch keys outside `total`. -/
lemma lookup_fold_untouched (dt : DieType) (total : List (DieType × Nat))
    (rem : List (DieType × Nat))
    (h : ∀ kv ∈ total, kv.1 ≠ dt) :
    lookupAssoc dt
        (total.foldl
          (fun rem kt =>
            updateAssoc kt.1 (fun r => min (r + (kt.2 + 1) / 2) kt.2) rem)
          rem)
      = lookupAssoc dt rem := by
  induction total generalizing rem with
  | nil => rfl
  | cons kt rest ih =>
      rw [List.foldl_cons]
      rw [ih _ (fun kv hkv => h kv (List.mem_cons_of_mem kt hkv))]
      exact lookup_updateAssoc_ne kt.1 dt _ rem (h kt (List.mem_cons_self kt rest))

/-- The recovery fold, on distinct keys, rewrites the entry of each
key of `total` to `min (r + ceil(t/2)) t`. -/
lemma recover_half_fold (total : List (DieType × Nat)) (dt : DieType)
    (t : Nat) (rem : List (DieType × Nat)) (r : Nat)
    (hnd : (total.map Prod.fst).Nodup)
    (ht : lookupAssoc dt total = some t)
    (hr : lookupAssoc dt rem = some r) :
    lookupAssoc dt
        (total.foldl
          (fun rem kt =>
            updateAssoc kt.1 (fun r => min (r + (kt.2 + 1) / 2) kt.2) rem)
          rem)
      = some (min (r + (t + 1) / 2) t) := by
  induction total generalizing rem with
  | nil => cases ht
  | cons kt rest ih =>
      obtain ⟨k0, v0⟩ := kt
      rw [List.map_cons, List.nodup_cons] at hnd
      obtain ⟨hk0, hndr⟩ := hnd
      rw [List.foldl_cons]
      unfold lookupAssoc at ht
      split_ifs at ht with hke
      · cases ht
        subst hke
        rw [lookup_fold_untouched k0 rest _ ?hrest]
        case hrest =>
          intro kv hkv hcontra
          exact hk0 (hcontra ▸ List.mem_map.mpr ⟨kv, hkv, rfl⟩)
        exact lookup_updateAssoc_eq k0 _ rem r hr
      · refine ih _ hndr ht ?_
        rw [lookup_updateAssoc_ne k0 dt _ rem hke]
        exact hr

/-- `recover_half` raises each present `remaining` entry by
`ceil(total/2)`, capped at `total`. -/
lemma recover_half_lookup (c : HitDice) (dt : DieType) (t r : Nat)
    (hnd : (c.total.map Prod.fst).Nodup)
    (ht : lookupAssoc dt c.total = some t)
    (hr : lookupAssoc dt c.remaining = some r) :
    lookupAssoc dt c.recover_half.remaining = some (min (r + (t + 1) / 2) t) := by
  unfold HitDice.recover_half
  exact recover_half_fold c.total dt t c.remaining r hnd ht hr

/-- C7.  A long rest: restores `current` to `maximum`; leaves no
Unconscious condition (in particular, a character at 0 HP wakes at full
HP); reduces every `Exhaustion(n)` (n ≥ 2) to `Exhaustion(n-1)` with
source and duration preserved, every surviving exhaustion having level
≥ 1 and coming from one level higher (so `Exhaustion(1)` disappears);
raises each die type's remaining hit dice by `ceil(total/2)` capped at
`total`; resets every spell slot's `used` to 0 keeping the totals; and
resets every feature with recharge `ShortRest` or `LongRest` to
`current = maximum`. -/
theorem C7_long_rest_recovery (c : Character) (sc : SpellcastingData)
    (hsc : c.spellcasting = some sc)
    (hnd : (c.hit_dice.total.map Prod.fst).Nodup) :
    (apply_long_rest c).hit_points.current = c.hit_points.maximum ∧
    (∀ ac ∈ (apply_long_rest c).conditions, ac.condition ≠ .Unconscious) ∧
    (∀ src dur n, 2 ≤ n →
      ActiveCondition.mk (.Exhaustion n) src dur ∈ c.conditions →
      ActiveCondition.mk (.Exhaustion (n - 1)) src dur
        ∈ (apply_long_rest c).conditions) ∧
    (∀ ac2 ∈ (apply_long_rest c).conditions, ∀ n,
      ac2.condition = .Exhaustion n →
      1 ≤ n ∧ ActiveCondition.mk (.Exhaustion (n + 1)) ac2.source
        ac2.duration_rounds ∈ c.conditions) ∧
    (∀ dt t r, lookupAssoc dt c.hit_dice.total = some t →
      lookupAssoc dt c.hit_dice.remaining = some r →
      lookupAssoc dt (apply_long_rest c).hit_dice.remaining
        = some (min (r + (t + 1) / 2) t)) ∧
    (∃ sc2, (apply_long_rest c).spellcasting = some sc2 ∧
      sc2.spell_slots.slots.map SlotInfo.used
        = sc.spell_slots.slots.map (fun _ => 0) ∧
      sc2.spell_slots.slots.map SlotInfo.total
        = sc.spell_slots.slots.map SlotInfo.total) ∧
    (∀ nm u, Feature.mk nm (some u) ∈ c.features →
      (u.recharge = .ShortRest ∨ u.recharge = .LongRest) →
      Feature.mk nm (some { u with current := u.maximum })
        ∈ (apply_long_rest c).features) := by
  refine ⟨?_, ?_, ?_, ?_, ?_, ?_, ?_⟩
  · rw [alr_hit_points]
  · intro ac hac
    rw [alr_conditions] at hac
    rw [List.mem_filter] at hac
    obtain ⟨hmem, _⟩ := hac
    rw [List.mem_map] at hmem
    obtain ⟨a, ha, hmap⟩ := hmem
    rw [List.mem_filter] at ha
    obtain ⟨_, hne⟩ := ha
    simp only [decide_eq_true_eq] at hne
    intro hu
    apply hne
    cases hca : a.condition <;> simp only [hca] at hmap
    case Exhaustion level =>
      split_ifs at hmap with hl
      · rw [← hmap] at hu
        simp at hu
      · rw [← hmap, hca] at hu
        exact hu
    all_goals rw [← hmap, hca] at hu
    all_goals exact hu
  · intro src dur n hn hmem
    rw [alr_conditions, List.mem_filter]
    constructor
    · rw [List.mem_map]
      refine ⟨ActiveCondition.mk (.Exhaustion n) src dur,
        List.mem_filter.mpr ⟨hmem, by simp⟩, ?_⟩
      simp only
      rw [if_pos (show n > 0 by omega)]
    · simp only [decide_eq_true_eq]
      intro hcontra
      injection hcontra with h0
      omega
  · intro ac2 hac2 n hn
    rw [alr_conditions, List.mem_filter] at hac2
    obtain ⟨hmem, hnz⟩ := hac2
    simp only [decide_eq_true_eq] at hnz
    rw [List.mem_map] at hmem
    obtain ⟨a, ha, hmap⟩ := hmem
    rw [List.mem_filter] at ha
    obtain ⟨hac, _⟩ := ha
    cases hca : a.condition <;> simp only [hca] at hmap
    case Exhaustion level =>
      split_ifs at hmap with hl
      · have hcond : ac2.condition = Condition.Exhaustion (level - 1) := by
          rw [← hmap]
        rw [hn] at hcond
        injection hcond with hlev
        have hn1 : 1 ≤ n := by
          rcases Nat.eq_zero_or_pos n with h0 | h1
          · exfalso
            apply hnz
            rw [hn, h0]
          · exact h1
        refine ⟨hn1, ?_⟩
        have hsrc : ac2.source = a.source := by rw [← hmap]
        have hdur : ac2.duration_rounds = a.duration_rounds := by rw [← hmap]
        have heq : ActiveCondition.mk (.Exhaustion (n + 1)) ac2.source
            ac2.duration_rounds = a := by
          rw [hsrc, hdur]
          have hnl : Condition.Exhaustion (n + 1) = a.condition := by
            rw [hca]
            congr 1
            omega
          rw [hnl]
        rw [heq]
        exact hac
      · exfalso
        rw [← hmap, hca] at hn hnz
        injection hn with hnl
        apply hnz
        congr 1
        omega
    all_goals rw [← hmap, hca] at hn
    all_goals simp at hn
  · intro dt t r ht hr
    rw [alr_hit_dice]
    exact recover_half_lookup c.hit_dice dt t r hnd ht hr
  · refine ⟨_, alr_spellcasting c sc hsc, ?_, ?_⟩
    · unfold SpellSlots.recover_all
      rw [List.map_map]
      exact List.map_congr_left (fun a _ => rfl)
    · unfold SpellSlots.recover_all
      rw [List.map_map]
      exact List.map_congr_left (fun a _ => rfl)
  · intro nm u hmem hrt
    rw [alr_features]
    rw [List.mem_map]
    refine ⟨Feature.mk nm (some u), hmem, ?_⟩
    dsimp only
    cases hu : u.recharge <;> simp [hu]

/-- A wounded, exhausted fighter shape for the long-rest witness. -/
def restCharacter : Character :=
  { id := 3, name := "Roland",
    hit_points := { current := 0, maximum := 28, temporary := 0 },
    hit_dice := { total := [(.d10, 3)], remaining := [(.d10, 1)] },
    death_saves := { successes := 0, failures := 0 },
    conditions :=
      [{ condition := .Unconscious, source := "Dropped to 0 HP",
         duration_rounds := none },
       { condition := .Exhaustion 2, source := "forced march",
         duration_rounds := none }],
    features :=
      [{ name := "Second Wind",
         uses := some { current := 0, maximum := 1, recharge := .ShortRest } }],
    spellcasting := some
      { spell_slots :=
          { slots :=
              [{ total := 3, used := 2 }, { total := 0, used := 0 },
               { total := 0, used := 0 }, { total := 0, used := 0 },
               { total := 0, used := 0 }, { total := 0, used := 0 },
               { total := 0, used := 0 }, { total := 0, used := 0 },
               { total := 0, used := 0 }] } },
    inventory := { items := [], gold := 0, silver := 0 } }

/-- The spellcasting data of `restCharacter`. -/
def restSpellcasting : SpellcastingData :=
  { spell_slots :=
      { slots :=
          [{ total := 3, used := 2 }, { total := 0, used := 0 },
           { total := 0, used := 0 }, { total := 0, used := 0 },
           { total := 0, used := 0 }, { total := 0, used := 0 },
           { total := 0, used := 0 }, { total := 0, used := 0 },
           { total := 0, used := 0 }] } }

/-- C7, witness: the long-rest theorem at the concrete wounded fighter. -/
theorem C7_long_rest_witness :
    (apply_long_rest restCharacter).hit_points.current
      = restCharacter.hit_points.maximum ∧
    (∀ ac ∈ (apply_long_rest restCharacter).conditions,
      ac.condition ≠ .Unconscious) ∧
    (∀ src dur n, 2 ≤ n →
      ActiveCondition.mk (.Exhaustion n) src dur ∈ restCharacter.conditions →
      ActiveCondition.mk (.Exhaustion (n - 1)) src dur
        ∈ (apply_long_rest restCharacter).conditions) ∧
    (∀ ac2 ∈ (apply_long_rest restCharacter).conditions, ∀ n,
      ac2.condition = .Exhaustion n →
      1 ≤ n ∧ ActiveCondition.mk (.Exhaustion (n + 1)) ac2.source
        ac2.duration_rounds ∈ restCharacter.conditions) ∧
    (∀ dt t r, lookupAssoc dt restCharacter.hit_dice.total = some t →
      lookupAssoc dt restCharacter.hit_dice.remaining = some r →
      lookupAssoc dt (apply_long_rest restCharacter).hit_dice.remaining
        = some (min (r + (t + 1) / 2) t)) ∧
    (∃ sc2, (apply_long_rest restCharacter).spellcasting = some sc2 ∧
      sc2.spell_slots.slots.map SlotInfo.used
        = restSpellcasting.spell_slots.slots.map (fun _ => 0) ∧
      sc2.spell_slots.slots.map SlotInfo.total
        = restSpellcasting.spell_slots.slots.map SlotInfo.total) ∧
    (∀ nm u, Feature.mk nm (some u) ∈ restCharacter.features →
      (u.recharge = .ShortRest ∨ u.recharge = .LongRest) →
      Feature.mk nm (some { u with current := u.maximum })
        ∈ (apply_long_rest restCharacter).features) :=
  C7_long_rest_recovery restCharacter restSpellcasting rfl (by decide)

end Chronicle
namespace Chronicle

/-! ### JSON validity and the relevance-module claim (C9)

The claim speaks of "valid JSON objects"; the grammar below formalises
that notion from the claim's words (values built from strings, natural
numbers, objects and arrays), with a canonical whitespace-free
rendering, an escape-aware validity predicate `wfV` and an escape-free
(plain) restriction `wfPlain`. -/

/-! ### A JSON fragment grammar for the relevance-module claim -/

/-- Decimal digits of a natural number, fuel-driven recursion. -/
def natRenderAux : Nat → Nat → List Char
  | 0, _ => []
  | fuel + 1, n =>
      if n < 10 then [Char.ofNat (48 + n)]
      else natRenderAux fuel (n / 10) ++ [Char.ofNat (48 + n % 10)]

/-- Decimal rendering of a natural number. -/
def natRender (n : Nat) : List Char := natRenderAux (n + 1) n

/-- The backtick character (code 96). -/
def btick : Char := Char.ofNat 96

mutual
/-- JSON values: strings, natural numbers, objects and arrays. -/
inductive Jval where
  | str : List Char → Jval
  | num : Nat → Jval
  | obj : Jmembers → Jval
  | arr : Jelems → Jval
/-- The member list of a JSON object. -/
inductive Jmembers where
  | nil : Jmembers
  | cons : List Char → Jval → Jmembers → Jmembers
/-- The element list of a JSON array. -/
inductive Jelems where
  | nil : Jelems
  | cons : Jval → Jelems → Jelems
end

/-- Separator rendered after a member when further members follow. -/
def msep : Jmembers → List Char
  | .nil => []
  | .cons _ _ _ => [',']

/-- Separator rendered after an element when further elements follow. -/
def esep : Jelems → List Char
  | .nil => []
  | .cons _ _ => [',']

mutual
/-- Canonical rendering of a JSON value: no whitespace between tokens. -/
def renderV : Jval → List Char
  | .str s => '"' :: (s ++ ['"'])
  | .num n => natRender n
  | .obj ms => '\x7b' :: (renderMembers ms ++ ['\x7d'])
  | .arr es => '[' :: (renderElems es ++ [']'])
/-- Canonical rendering of object members. -/
def renderMembers : Jmembers → List Char
  | .nil => []
  | .cons k v ms =>
      '"' :: (k ++ '"' :: ':' :: (renderV v ++ (msep ms ++ renderMembers ms)))
/-- Canonical rendering of array elements. -/
def renderElems : Jelems → List Char
  | .nil => []
  | .cons v es => renderV v ++ (esep es ++ renderElems es)
end

/-- Escape-free string content: no quote and no backslash at all. -/
def strPlain (s : List Char) : Bool :=
  s.all (fun c => (c != '"') && (c != '\\'))

/-- Valid JSON string content: quotes and backslashes occur only in the
two-character escapes for a quote and for a backslash. -/
def strOK : List Char → Bool
  | [] => true
  | c :: rest =>
      if c = '\\' then
        match rest with
        | [] => false
        | d :: rest2 => (d == '"' || d == '\\') && strOK rest2
      else (c != '"') && strOK rest

mutual
/-- Escape-free (plain) values: every string leaf and key is plain. -/
def wfPlainV : Jval → Bool
  | .str s => strPlain s
  | .num _ => true
  | .obj ms => wfPlainM ms
  | .arr es => wfPlainE es
/-- Escape-free members. -/
def wfPlainM : Jmembers → Bool
  | .nil => true
  | .cons k v ms => strPlain k && wfPlainV v && wfPlainM ms
/-- Escape-free elements. -/
def wfPlainE : Jelems → Bool
  | .nil => true
  | .cons v es => wfPlainV v && wfPlainE es
end

mutual
/-- Well-formed values: string leaves and keys use only valid escapes. -/
def wfV : Jval → Bool
  | .str s => strOK s
  | .num _ => true
  | .obj ms => wfM ms
  | .arr es => wfE es
/-- Well-formed members. -/
def wfM : Jmembers → Bool
  | .nil => true
  | .cons k v ms => strOK k && wfV v && wfM ms
/-- Well-formed elements. -/
def wfE : Jelems → Bool
  | .nil => true
  | .cons v es => wfV v && wfE es
end

/-- A valid one-member JSON object whose string value contains a fenced
code block: `\x7b"a":"` ```json \x7b\x7d junk``` `"\x7d`. -/
def ceObj : Jval :=
  .obj (.cons "a".toList (.str "```json \x7b\x7d junk ```".toList) .nil)

/-- A valid JSON object with an `evidence` member followed by a member
whose key holds an escaped quote. -/
def ce2Obj : Jval :=
  .obj (.cons "evidence".toList (.str "a".toList)
    (.cons "b\\\"c".toList (.num 1) .nil))

/-- C9, counterexample: the render of `ceObj` is a valid JSON object
(escape-free, so trivially using only valid escapes), yet because its
string value contains a fenced ```` ```json ```` block, `extract_json`
mangles it rather than returning it unchanged, and applying
`extract_json` twice differs from applying it once; and on the valid
object rendered from `ce2Obj` — whose second key holds an escaped
quote — `sanitize_json` corrupts the text instead of being a no-op. -/
theorem C9_counterexample :
    wfPlainV ceObj = true ∧ wfV ceObj = true ∧
    extract_json (renderV ceObj) ≠ renderV ceObj ∧
    extract_json (extract_json (renderV ceObj))
      ≠ extract_json (renderV ceObj) ∧
    wfV ce2Obj = true ∧
    sanitize_json (renderV ce2Obj) ≠ renderV ce2Obj := by
  exact ⟨by decide, by decide, by decide, by decide, by decide, by decide⟩

/-! ### Scan lemmas for `extract_json` on canonical renders -/

lemma strPlain_mem (s : List Char) (h : strPlain s = true) (c : Char)
    (hc : c ∈ s) : c ≠ '"' ∧ c ≠ '\\' := by
  simp only [strPlain, List.all_eq_true] at h
  have := h c hc
  simpa using this

lemma natRenderAux_digits (fuel n : Nat) :
    ∀ c ∈ natRenderAux fuel n, ∃ d, d < 10 ∧ c = Char.ofNat (48 + d) := by
  induction fuel generalizing n with
  | zero => intro c hc; simp [natRenderAux] at hc
  | succ fuel ih =>
      intro c hc
      unfold natRenderAux at hc
      by_cases hn : n < 10
      · rw [if_pos hn] at hc
        simp at hc
        exact ⟨n, hn, hc⟩
      · rw [if_neg hn] at hc
        rcases List.mem_append.mp hc with h1 | h2
        · exact ih (n / 10) c h1
        · simp at h2
          exact ⟨n % 10, Nat.mod_lt n (by omega), h2⟩

lemma digit_char_props (d : Nat) (h : d < 10) :
    Char.ofNat (48 + d) ≠ '"' ∧ Char.ofNat (48 + d) ≠ '\\' ∧
    Char.ofNat (48 + d) ≠ '\x7b' ∧ Char.ofNat (48 + d) ≠ '\x7d' ∧
    isWs (Char.ofNat (48 + d)) = false ∧ Char.ofNat (48 + d) ≠ btick := by
  interval_cases d <;> exact (by decide)

lemma natRender_ne_nil (n : Nat) : natRender n ≠ [] := by
  unfold natRender natRenderAux
  by_cases hn : n < 10
  · rw [if_pos hn]; simp
  · rw [if_neg hn]; simp

/-- Unfolding step of the brace-matching loop. -/
lemma scanGo_cons (c : Char) (l : List Char) (st : ScanSt) (i : Nat) :
    scanGo (c :: l) st i =
      if scanExit st c then some i else scanGo l (scanStep st c) (i + 1) :=
  rfl

lemma scanExit_false_of_ne (st : ScanSt) (c : Char) (h : c ≠ '\x7d') :
    scanExit st c = false := by
  unfold scanExit
  split_ifs <;> simp_all

lemma scanExit_instring (st : ScanSt) (c : Char)
    (hin : st.in_string = true) : scanExit st c = false := by
  unfold scanExit
  split_ifs <;> simp_all

lemma scanStep_neutral (st : ScanSt) (c : Char)
    (hesc : st.escape_next = false) (h1 : c ≠ '\\') (h2 : c ≠ '"')
    (h3 : c ≠ '\x7b') (h4 : c ≠ '\x7d') : scanStep st c = st := by
  unfold scanStep
  split_ifs <;> simp_all

lemma scanStep_instring (st : ScanSt) (c : Char)
    (hin : st.in_string = true) (hesc : st.escape_next = false)
    (h1 : c ≠ '\\') (h2 : c ≠ '"') : scanStep st c = st := by
  unfold scanStep
  split_ifs <;> simp_all

lemma scanStep_quote_open (st : ScanSt) (hin : st.in_string = false)
    (hesc : st.escape_next = false) :
    scanStep st '"' = { st with in_string := true } := by
  unfold scanStep
  split_ifs <;> simp_all

lemma scanStep_quote_close (st : ScanSt) (hin : st.in_string = false)
    (hesc : st.escape_next = false) :
    scanStep { st with in_string := true } '"' = st := by
  cases st
  unfold scanStep
  split_ifs <;> simp_all

lemma scanStep_lbrace (st : ScanSt) (hin : st.in_string = false)
    (hesc : st.escape_next = false) :
    scanStep st '\x7b' = { st with depth := st.depth + 1 } := by
  unfold scanStep
  split_ifs with h1 h2 h3 h4 <;> simp_all

lemma scanStep_rbrace (st : ScanSt) (hin : st.in_string = false)
    (hesc : st.escape_next = false) :
    scanStep st '\x7d' = { st with depth := st.depth - 1 } := by
  unfold scanStep
  split_ifs with h1 h2 h3 h4 h5 <;> simp_all

lemma scanExit_rbrace (st : ScanSt) (hin : st.in_string = false)
    (hesc : st.escape_next = false) :
    scanExit st '\x7d' = (st.depth - 1 == 0) := by
  unfold scanExit
  split_ifs <;> simp_all

/-- Scanning a list of characters that neither change the state nor
trigger an exit just moves the position forward. -/
lemma scanGo_chunk (l : List Char) (st : ScanSt)
    (h : ∀ c ∈ l, scanStep st c = st ∧ scanExit st c = false) :
    ∀ (i : Nat) (rest : List Char),
      scanGo (l ++ rest) st i = scanGo rest st (i + l.length) := by
  induction l with
  | nil => intro i rest; simp
  | cons c t ih =>
      intro i rest
      have hc := h c (by simp)
      rw [List.cons_append, scanGo_cons, hc.2, if_neg (by simp), hc.1,
        ih (fun c2 hc2 => h c2 (by simp [hc2])) (i + 1) rest]
      congr 1
      simp
      omega

/-- Characters of a plain string, scanned inside a string, are neutral. -/
lemma plain_chunk_neutral (s : List Char) (hs : strPlain s = true)
    (st : ScanSt) (hin : st.in_string = true)
    (hesc : st.escape_next = false) :
    ∀ c ∈ s, scanStep st c = st ∧ scanExit st c = false := by
  intro c hc
  have hp := strPlain_mem s hs c hc
  exact ⟨scanStep_instring st c hin hesc hp.2 hp.1,
    scanExit_instring st c hin⟩

/-- Digit characters, scanned outside a string, are neutral. -/
lemma digit_chunk_neutral (n : Nat) (st : ScanSt)
    (hesc : st.escape_next = false) :
    ∀ c ∈ natRender n, scanStep st c = st ∧ scanExit st c = false := by
  intro c hc
  obtain ⟨d, hd, rfl⟩ := natRenderAux_digits (n + 1) n c hc
  obtain ⟨p1, p2, p3, p4, _, _⟩ := digit_char_props d hd
  exact ⟨scanStep_neutral st _ hesc p2 p1 p3 p4,
    scanExit_false_of_ne st _ p4⟩

mutual

/-- The brace scan passes through the render of a plain value without
changing state or exiting, provided the ambient depth is at least 1. -/
theorem scanV_go (v : Jval) (hwf : wfPlainV v = true) (st : ScanSt)
    (hin : st.in_string = false) (hesc : st.escape_next = false)
    (hd : 1 ≤ st.depth) (i : Nat) (rest : List Char) :
    scanGo (renderV v ++ rest) st i
      = scanGo rest st (i + (renderV v).length) := by
  cases v with
  | str s =>
      have hplain : strPlain s = true := hwf
      have h1 : scanGo (renderV (.str s) ++ rest) st i
          = scanGo (s ++ ('"' :: rest)) { st with in_string := true }
              (i + 1) := by
        rw [renderV, List.cons_append, List.append_assoc,
          List.singleton_append, scanGo_cons,
          scanExit_false_of_ne st '"' (by decide), if_neg (by simp),
          scanStep_quote_open st hin hesc]
      have h2 : scanGo (s ++ ('"' :: rest)) { st with in_string := true }
            (i + 1)
          = scanGo ('"' :: rest) { st with in_string := true }
              (i + 1 + s.length) :=
        scanGo_chunk s { st with in_string := true }
          (plain_chunk_neutral s hplain { st with in_string := true }
            rfl hesc) (i + 1) ('"' :: rest)
      have h3 : scanGo ('"' :: rest) { st with in_string := true }
            (i + 1 + s.length)
          = scanGo rest st (i + 1 + s.length + 1) := by
        rw [scanGo_cons, scanExit_instring _ '"' rfl, if_neg (by simp),
          scanStep_quote_close st hin hesc]
      rw [h1, h2, h3]
      congr 1
      simp [renderV]
      try omega
  | num n =>
      rw [renderV, scanGo_chunk (natRender n) st
        (digit_chunk_neutral n st hesc)]
  | obj ms =>
      have hwf2 : wfPlainM ms = true := hwf
      have h1 : scanGo (renderV (.obj ms) ++ rest) st i
          = scanGo (renderMembers ms ++ ('\x7d' :: rest))
              { st with depth := st.depth + 1 } (i + 1) := by
        rw [renderV, List.cons_append, List.append_assoc,
          List.singleton_append, scanGo_cons,
          scanExit_false_of_ne st '\x7b' (by decide), if_neg (by simp),
          scanStep_lbrace st hin hesc]
      have h2 := scanM_go ms hwf2 { st with depth := st.depth + 1 } hin
        hesc (show 1 ≤ st.depth + 1 by omega) (i + 1) ('\x7d' :: rest)
      have hfalse : (({ st with depth := st.depth + 1 } : ScanSt).depth - 1
          == 0) = false := by
        show (st.depth + 1 - 1 == 0) = false
        simp
        omega
      have h3 : scanGo ('\x7d' :: rest) { st with depth := st.depth + 1 }
            (i + 1 + (renderMembers ms).length)
          = scanGo rest st (i + 1 + (renderMembers ms).length + 1) := by
        rw [scanGo_cons,
          scanExit_rbrace { st with depth := st.depth + 1 } hin hesc,
          hfalse, if_neg (by simp),
          scanStep_rbrace { st with depth := st.depth + 1 } hin hesc]
        congr 1
        cases st
        simp
      rw [h1, h2, h3]
      congr 1
      simp [renderV]
      try omega
  | arr es =>
      have hwf2 : wfPlainE es = true := hwf
      have h1 : scanGo (renderV (.arr es) ++ rest) st i
          = scanGo (renderElems es ++ (']' :: rest)) st (i + 1) := by
        rw [renderV, List.cons_append, List.append_assoc,
          List.singleton_append, scanGo_cons,
          scanExit_false_of_ne st '[' (by decide), if_neg (by simp),
          scanStep_neutral st '[' hesc (by decide) (by decide) (by decide)
            (by decide)]
      have h2 := scanE_go es hwf2 st hin hesc hd (i + 1) (']' :: rest)
      have h3 : scanGo (']' :: rest) st (i + 1 + (renderElems es).length)
          = scanGo rest st (i + 1 + (renderElems es).length + 1) := by
        rw [scanGo_cons, scanExit_false_of_ne st ']' (by decide),
          if_neg (by simp),
          scanStep_neutral st ']' hesc (by decide) (by decide) (by decide)
            (by decide)]
      rw [h1, h2, h3]
      congr 1
      simp [renderV]
      try omega

/-- The brace scan passes through rendered members without changing
state or exiting, provided the ambient depth is at least 1. -/
theorem scanM_go (ms : Jmembers) (hwf : wfPlainM ms = true) (st : ScanSt)
    (hin : st.in_string = false) (hesc : st.escape_next = false)
    (hd : 1 ≤ st.depth) (i : Nat) (rest : List Char) :
    scanGo (renderMembers ms ++ rest) st i
      = scanGo rest st (i + (renderMembers ms).length) := by
  cases ms with
  | nil => simp [renderMembers]
  | cons k v ms =>
      have hwf3 : strPlain k = true ∧ wfPlainV v = true ∧
          wfPlainM ms = true := by
        have h0 := hwf
        rw [wfPlainM] at h0
        simp at h0
        exact ⟨h0.1.1, h0.1.2, h0.2⟩
      have hsplit : renderMembers (.cons k v ms) ++ rest
          = '"' :: (k ++ ('"' :: (':' :: (renderV v
              ++ (msep ms ++ (renderMembers ms ++ rest)))))) := by
        rw [renderMembers]
        simp [List.cons_append, List.append_assoc]
      have h1 : scanGo ('"' :: (k ++ ('"' :: (':' :: (renderV v
              ++ (msep ms ++ (renderMembers ms ++ rest)))))) ) st i
          = scanGo (k ++ ('"' :: (':' :: (renderV v
              ++ (msep ms ++ (renderMembers ms ++ rest))))))
              { st with in_string := true } (i + 1) := by
        rw [scanGo_cons, scanExit_false_of_ne st '"' (by decide),
          if_neg (by simp), scanStep_quote_open st hin hesc]
      have h2 := scanGo_chunk k { st with in_string := true }
        (plain_chunk_neutral k hwf3.1 { st with in_string := true }
          rfl hesc) (i + 1)
        ('"' :: (':' :: (renderV v ++ (msep ms ++ (renderMembers ms ++ rest)))))
      have h3 : scanGo ('"' :: (':' :: (renderV v
              ++ (msep ms ++ (renderMembers ms ++ rest)))))
              { st with in_string := true } (i + 1 + k.length)
          = scanGo (':' :: (renderV v
              ++ (msep ms ++ (renderMembers ms ++ rest)))) st
              (i + 1 + k.length + 1) := by
        rw [scanGo_cons, scanExit_instring _ '"' rfl, if_neg (by simp),
          scanStep_quote_close st hin hesc]
      have h4 : scanGo (':' :: (renderV v
              ++ (msep ms ++ (renderMembers ms ++ rest)))) st
              (i + 1 + k.length + 1)
          = scanGo (renderV v ++ (msep ms ++ (renderMembers ms ++ rest)))
              st (i + 1 + k.length + 1 + 1) := by
        rw [scanGo_cons, scanExit_false_of_ne st ':' (by decide),
          if_neg (by simp),
          scanStep_neutral st ':' hesc (by decide) (by decide) (by decide)
            (by decide)]
      have h5 := scanV_go v hwf3.2.1 st hin hesc hd
        (i + 1 + k.length + 1 + 1) (msep ms ++ (renderMembers ms ++ rest))
      rw [hsplit, h1, h2, h3, h4, h5]
      cases ms with
      | nil =>
          rw [show msep Jmembers.nil = [] from rfl,
            show renderMembers Jmembers.nil = [] from rfl]
          simp only [List.nil_append]
          congr 1
          simp [renderMembers, msep]
          try omega
      | cons k2 v2 ms2 =>
          rw [show msep (Jmembers.cons k2 v2 ms2) = [','] from rfl,
            List.singleton_append]
          rw [scanGo_cons, scanExit_false_of_ne st ',' (by decide),
            if_neg (by simp),
            scanStep_neutral st ',' hesc (by decide) (by decide)
              (by decide) (by decide),
            scanM_go (.cons k2 v2 ms2) hwf3.2.2 st hin hesc hd]
          congr 1
          simp [renderMembers, msep]
          try omega

/-- The brace scan passes through rendered elements without changing
state or exiting, provided the ambient depth is at least 1. -/
theorem scanE_go (es : Jelems) (hwf : wfPlainE es = true) (st : ScanSt)
    (hin : st.in_string = false) (hesc : st.escape_next = false)
    (hd : 1 ≤ st.depth) (i : Nat) (rest : List Char) :
    scanGo (renderElems es ++ rest) st i
      = scanGo rest st (i + (renderElems es).length) := by
  cases es with
  | nil => simp [renderElems]
  | cons v es =>
      have hwf3 : wfPlainV v = true ∧ wfPlainE es = true := by
        have h0 := hwf
        rw [wfPlainE] at h0
        simp at h0
        exact h0
      have hsplit : renderElems (.cons v es) ++ rest
          = renderV v ++ (esep es ++ (renderElems es ++ rest)) := by
        rw [renderElems]
        simp [List.append_assoc]
      have h5 := scanV_go v hwf3.1 st hin hesc hd i
        (esep es ++ (renderElems es ++ rest))
      rw [hsplit, h5]
      cases es with
      | nil =>
          rw [show esep Jelems.nil = [] from rfl,
            show renderElems Jelems.nil = [] from rfl]
          simp only [List.nil_append]
          congr 1
          simp [renderElems, esep]
      | cons v2 es2 =>
          rw [show esep (Jelems.cons v2 es2) = [','] from rfl,
            List.singleton_append]
          rw [scanGo_cons, scanExit_false_of_ne st ',' (by decide),
            if_neg (by simp),
            scanStep_neutral st ',' hesc (by decide) (by decide)
              (by decide) (by decide),
            scanE_go (.cons v2 es2) hwf3.2 st hin hesc hd]
          congr 1
          simp [renderElems, esep]
          try omega

end

/-! ### Trim and substring-search lemmas -/

/-- Trimming fixes a list whose first and last characters are not
whitespace. -/
lemma trimList_sandwich (c d : Char) (m : List Char)
    (hc : isWs c = false) (hd : isWs d = false) :
    trimList (c :: (m ++ [d])) = c :: (m ++ [d]) := by
  unfold trimList
  rw [List.dropWhile_cons_of_neg (by simp [hc])]
  rw [show (c :: (m ++ [d])).reverse = d :: (m.reverse ++ [c]) by simp]
  rw [List.dropWhile_cons_of_neg (by simp [hd])]
  simp

/-- `trim_start` fixes a list whose first character is not whitespace. -/
lemma trimStart_id_of_head (l : List Char) (c : Char)
    (h : l.head? = some c) (hc : isWs c = false) : trimStart l = l := by
  cases l with
  | nil => simp at h
  | cons x t =>
      simp at h
      subst h
      unfold trimStart
      rw [List.dropWhile_cons_of_neg (by simp [hc])]

/-- A pattern whose first character never occurs in the text is not
found. -/
lemma findSub_none_of_head_not_mem (c : Char) (ps l : List Char)
    (h : c ∉ l) : findSub (c :: ps) l = none := by
  induction l with
  | nil => simp [findSub, begins]
  | cons x t ih =>
      rw [findSub]
      have hne : c ≠ x := fun hcx => h (hcx ▸ List.mem_cons_self x t)
      rw [begins]
      simp only [hne, false_and]
      rw [if_neg (by simp [hne])]
      rw [ih (fun hmem => h (List.mem_cons_of_mem x hmem))]
      rfl

/-- A successful prefix test splits the text. -/
lemma begins_split (p l : List Char) (h : begins p l = true) :
    l = p ++ l.drop p.length := by
  induction p generalizing l with
  | nil => simp
  | cons c ps ih =>
      cases l with
      | nil => simp [begins] at h
      | cons x t =>
          rw [begins] at h
          simp at h
          obtain ⟨hcx, hps⟩ := h
          subst hcx
          simp only [List.cons_append, List.length_cons,
            List.drop_succ_cons]
          rw [← ih t hps]

/-- A successful substring search splits the text at the hit. -/
lemma findSub_some_split (p l : List Char) (i : Nat)
    (h : findSub p l = some i) :
    l = l.take i ++ p ++ l.drop (i + p.length) := by
  induction l generalizing i with
  | nil =>
      rw [findSub] at h
      by_cases hb : begins p [] = true
      · rw [if_pos hb] at h
        cases p with
        | nil => simp
        | cons c ps => simp [begins] at hb
      · rw [if_neg hb] at h
        simp at h
  | cons x t ih =>
      rw [findSub] at h
      by_cases hb : begins p (x :: t) = true
      · rw [if_pos hb] at h
        have h0 : i = 0 := by
          have := h
          simp at this
          omega
        subst h0
        simp only [List.take_zero, List.nil_append, Nat.zero_add]
        exact begins_split p (x :: t) hb
      · rw [if_neg hb] at h
        cases hfs : findSub p t with
        | none => rw [hfs] at h; simp at h
        | some j =>
            rw [hfs] at h
            simp at h
            subst h
            have := ih j hfs
            calc x :: t = x :: (t.take j ++ p ++ t.drop (j + p.length)) := by
                  rw [← this]
              _ = (x :: t).take (j + 1) ++ p
                  ++ (x :: t).drop (j + 1 + p.length) := by
                  simp [List.take_succ_cons, List.drop_succ_cons]
                  rw [show j + 1 + p.length = (j + p.length) + 1 by omega]
                  simp [List.drop_succ_cons]

/-- On the canonical render of a plain, backtick-free JSON object,
`extract_json` is the identity. -/
lemma extract_render_id (ms : Jmembers) (hwf : wfPlainM ms = true)
    (hbt : btick ∉ renderV (.obj ms)) :
    extract_json (renderV (.obj ms)) = renderV (.obj ms) := by
  have hsh : renderV (.obj ms)
      = '\x7b' :: (renderMembers ms ++ ['\x7d']) := rfl
  have htrim : trimList (renderV (.obj ms)) = renderV (.obj ms) := by
    rw [hsh]
    exact trimList_sandwich '\x7b' '\x7d' (renderMembers ms) (by decide)
      (by decide)
  have hjson : findSub "```json".toList (renderV (.obj ms)) = none := by
    rw [show "```json".toList = btick :: "``json".toList from by decide]
    exact findSub_none_of_head_not_mem btick _ _ hbt
  have hfence : findSub "```".toList (renderV (.obj ms)) = none := by
    rw [show "```".toList = btick :: "``".toList from by decide]
    exact findSub_none_of_head_not_mem btick _ _ hbt
  have hbrace : findSub "\x7b".toList (renderV (.obj ms)) = some 0 := by
    rw [hsh, show "\x7b".toList = ['\x7b'] from by decide, findSub]
    rw [if_pos]
    rw [begins, begins]
    simp
  have hscan : scanGo (renderV (.obj ms)) scanInit 0
      = some (1 + (renderMembers ms).length) := by
    rw [hsh, scanGo_cons]
    rw [scanExit_false_of_ne scanInit '\x7b' (by decide), if_neg (by simp)]
    rw [show scanStep scanInit '\x7b' = (⟨1, false, false⟩ : ScanSt)
      from by decide]
    rw [scanM_go ms hwf ⟨1, false, false⟩ rfl rfl (by decide) 1 ['\x7d']]
    rw [scanGo_cons]
    rw [show scanExit ⟨1, false, false⟩ '\x7d' = true from by decide]
    rw [if_pos rfl]
  simp only [extract_json]
  rw [htrim, hjson]
  dsimp only
  rw [hfence]
  dsimp only
  rw [hbrace]
  dsimp only
  rw [List.drop_zero, hscan]
  dsimp only
  rw [hsh]
  rw [show 1 + (renderMembers ms).length + 1
    = ('\x7b' :: (renderMembers ms ++ ['\x7d'])).length from by simp; omega]
  exact List.take_length _

/-! ### Occurrence analysis of the `"evidence":` pattern in renders -/

/-- The literal key pattern searched for by `sanitize_json`. -/
def evKey : List Char := "\"evidence\":".toList

/-- The bare key name. -/
def evName : List Char := "evidence".toList

lemma evKey_shape : evKey = '"' :: (evName ++ ['"', ':']) := by decide

lemma evKey_append (b : List Char) :
    evKey ++ b = '"' :: (evName ++ ('"' :: (':' :: b))) := by
  rw [evKey_shape]
  simp

/-- Splitting `x ++ y = u ++ p ++ w`: the pattern `p` lies inside `x`,
inside `y`, or straddles the boundary. -/
lemma append_eq_split (x y u p w : List Char)
    (h : x ++ y = u ++ p ++ w) :
    (∃ w0, x = u ++ p ++ w0 ∧ w = w0 ++ y) ∨
    (∃ u0, u = x ++ u0 ∧ y = u0 ++ p ++ w) ∨
    (∃ p1 p2, p = p1 ++ p2 ∧ p1 ≠ [] ∧ p2 ≠ [] ∧ x = u ++ p1 ∧
      y = p2 ++ w) := by
  rw [List.append_assoc] at h
  rcases List.append_eq_append_iff.mp h with ⟨a2, hu, hy⟩ | ⟨c2, hx, hpw⟩
  · refine Or.inr (Or.inl ⟨a2, hu, ?_⟩)
    rw [hy, List.append_assoc]
  · rcases List.append_eq_append_iff.mp hpw with ⟨p2, hc2, hw⟩ | ⟨q, hp, hy2⟩
    · refine Or.inl ⟨p2, ?_, hw⟩
      rw [hx, hc2, List.append_assoc]
    · by_cases hc : c2 = []
      · subst hc
        refine Or.inr (Or.inl ⟨[], ?_, ?_⟩)
        · rw [hx]
          simp
        · simp only [List.nil_append] at hp ⊢
          rw [hy2, hp]
      · by_cases hq : q = []
        · subst hq
          refine Or.inl ⟨[], ?_, ?_⟩
          · rw [hx, hp]
            simp
          · rw [hy2]
            simp
        · exact Or.inr (Or.inr ⟨c2, q, hp, hc, hq, hx, hy2⟩)

/-- Quote-free prefixes before a quote split uniquely. -/
lemma quote_split_unique : ∀ (s1 s2 r1 r2 : List Char), '"' ∉ s1 →
    '"' ∉ s2 → s1 ++ '"' :: r1 = s2 ++ '"' :: r2 → s1 = s2 ∧ r1 = r2 := by
  intro s1
  induction s1 with
  | nil =>
      intro s2 r1 r2 h1 h2 h
      cases s2 with
      | nil =>
          simp at h
          exact ⟨rfl, h⟩
      | cons d t2 =>
          rw [List.nil_append, List.cons_append] at h
          injection h with hd ht
          exact absurd (by rw [hd]; exact List.mem_cons_self d t2) h2
  | cons c t1 ih =>
      intro s2 r1 r2 h1 h2 h
      cases s2 with
      | nil =>
          rw [List.cons_append, List.nil_append] at h
          injection h with hd ht
          exact absurd (by rw [← hd]; exact List.mem_cons_self c t1) h1
      | cons d t2 =>
          rw [List.cons_append, List.cons_append] at h
          injection h with hd ht
          have hrec := ih t2 r1 r2 (fun hm => h1 (List.mem_cons_of_mem c hm))
            (fun hm => h2 (List.mem_cons_of_mem d hm)) ht
          exact ⟨by rw [hd, hrec.1], hrec.2⟩

/-- The shape of what follows the value after a matched member: either
the enclosing object closes, or a comma and a further plain key follow. -/
def TailM (r : List Char) : Prop :=
  (∃ r2, r = '\x7d' :: r2) ∨
  (∃ k r2, strPlain k = true ∧
    r = ',' :: ('"' :: (k ++ ('"' :: (':' :: r2)))))

lemma TailM_append (r t : List Char) (h : TailM r) : TailM (r ++ t) := by
  rcases h with ⟨r2, rfl⟩ | ⟨k, r2, hk, rfl⟩
  · exact Or.inl ⟨r2 ++ t, by simp⟩
  · refine Or.inr ⟨k, r2 ++ t, hk, ?_⟩
    simp

/-- After any occurrence of the pattern inside a rendered value, a
rendered value follows, then a `TailM` continuation. -/
def GoodV (b : List Char) : Prop :=
  ∃ w r, wfPlainV w = true ∧ TailM r ∧ b = renderV w ++ r

/-- Inside rendered members the continuation may also be empty (the
enclosing object contributes the closing brace). -/
def GoodM (b : List Char) : Prop :=
  ∃ w r, wfPlainV w = true ∧ (r = [] ∨ TailM r) ∧ b = renderV w ++ r

lemma strPlain_no_quote (s : List Char) (h : strPlain s = true) :
    '"' ∉ s :=
  fun hm => (strPlain_mem s h '"' hm).1 rfl

lemma wfPlainM_cons (k : List Char) (v : Jval) (ms : Jmembers)
    (h : wfPlainM (.cons k v ms) = true) :
    strPlain k = true ∧ wfPlainV v = true ∧ wfPlainM ms = true := by
  rw [wfPlainM] at h
  simp at h
  exact ⟨h.1.1, h.1.2, h.2⟩

lemma wfPlainE_cons (v : Jval) (es : Jelems)
    (h : wfPlainE (.cons v es) = true) :
    wfPlainV v = true ∧ wfPlainE es = true := by
  rw [wfPlainE] at h
  simp at h
  exact h

lemma quote_mem_of_eq (s a1 w0 : List Char)
    (h : s = a1 ++ evKey ++ w0) : '"' ∈ s := by
  rw [h]
  have hq : '"' ∈ evKey := by decide
  simp [hq]

lemma short_eq_evKey_absurd (ys u0 b : List Char)
    (h : ys = u0 ++ evKey ++ b) (hlen : ys.length ≤ 10) : False := by
  have hl := congrArg List.length h
  rw [List.length_append, List.length_append] at hl
  rw [show evKey.length = 11 from by decide] at hl
  omega

lemma evKey_split_quote (p1 p2 : List Char) (hp : evKey = p1 ++ p2)
    (hne : p1 ≠ []) : '"' ∈ p1 := by
  cases p1 with
  | nil => exact absurd rfl hne
  | cons c t =>
      have h1 : evKey.head? = some c := by rw [hp]; simp
      rw [show evKey.head? = some '"' from by decide] at h1
      injection h1 with h2
      rw [← h2]
      exact List.mem_cons_self _ _

lemma sep_straddle_absurd (c : Char) (p1 p2 ys b : List Char)
    (hp : evKey = p1 ++ p2) (hne : p2 ≠ [])
    (hy : c :: ys = p2 ++ b) (hc : c ∉ evKey) : False := by
  cases p2 with
  | nil => exact hne rfl
  | cons c2 t2 =>
      rw [List.cons_append] at hy
      injection hy with h1 h2
      apply hc
      rw [hp, h1]
      simp

mutual

/-- Any occurrence of `"evidence":` inside a rendered plain value is a
key occurrence: a rendered value follows, then a `TailM` continuation. -/
theorem occV (v : Jval) (hwf : wfPlainV v = true) (a b : List Char)
    (h : renderV v = a ++ evKey ++ b) : GoodV b := by
  cases v with
  | str s =>
      have hplain : strPlain s = true := hwf
      rw [renderV] at h
      cases a with
      | nil =>
          rw [List.nil_append, evKey_append] at h
          injection h with h1 h2
          have huniq := quote_split_unique s evName [] (':' :: b)
            (strPlain_no_quote s hplain) (by decide) h2
          simp at huniq
      | cons c a1 =>
          simp only [List.cons_append] at h
          injection h with h1 h2
          rcases append_eq_split s ['"'] a1 evKey b h2 with
            ⟨w0, hs, hb⟩ | ⟨u0, hu, hy⟩ | ⟨p1, p2, hp, hne1, hne2, hxu, hy⟩
          · exact absurd (quote_mem_of_eq s a1 w0 hs)
              (strPlain_no_quote s hplain)
          · exact (short_eq_evKey_absurd ['"'] u0 b hy (by simp)).elim
          · have hqs : '"' ∈ s := by
              rw [hxu]
              exact List.mem_append_right a1 (evKey_split_quote p1 p2 hp hne1)
            exact absurd hqs (strPlain_no_quote s hplain)
  | num n =>
      rw [renderV] at h
      have hq : '"' ∈ natRender n := quote_mem_of_eq _ a b h
      obtain ⟨d, hd, hc⟩ := natRenderAux_digits (n + 1) n '"' hq
      exact absurd hc.symm (digit_char_props d hd).1
  | obj ms =>
      have hwf2 : wfPlainM ms = true := hwf
      rw [renderV] at h
      cases a with
      | nil =>
          rw [List.nil_append, evKey_append] at h
          injection h with h1 h2
          exact absurd h1 (by decide)
      | cons c a1 =>
          simp only [List.cons_append] at h
          injection h with h1 h2
          rcases append_eq_split (renderMembers ms) ['\x7d'] a1 evKey b h2
            with ⟨w0, hs, hb⟩ | ⟨u0, hu, hy⟩ |
              ⟨p1, p2, hp, hne1, hne2, hxu, hy⟩
          · obtain ⟨w, r, hw, hr, hb0⟩ := occM ms hwf2 a1 w0 hs
            refine ⟨w, r ++ ['\x7d'], hw, ?_, ?_⟩
            · rcases hr with rfl | htm
              · exact Or.inl ⟨[], by simp⟩
              · exact TailM_append r ['\x7d'] htm
            · rw [hb, hb0, List.append_assoc]
          · exact (short_eq_evKey_absurd ['\x7d'] u0 b hy (by simp)).elim
          · exact (sep_straddle_absurd '\x7d' p1 p2 [] b hp hne2 hy
              (by decide)).elim
  | arr es =>
      have hwf2 : wfPlainE es = true := hwf
      rw [renderV] at h
      cases a with
      | nil =>
          rw [List.nil_append, evKey_append] at h
          injection h with h1 h2
          exact absurd h1 (by decide)
      | cons c a1 =>
          simp only [List.cons_append] at h
          injection h with h1 h2
          rcases append_eq_split (renderElems es) [']'] a1 evKey b h2
            with ⟨w0, hs, hb⟩ | ⟨u0, hu, hy⟩ |
              ⟨p1, p2, hp, hne1, hne2, hxu, hy⟩
          · obtain ⟨w, r, hw, htm, hb0⟩ := occE es hwf2 a1 w0 hs
            refine ⟨w, r ++ [']'], hw, TailM_append r [']'] htm, ?_⟩
            rw [hb, hb0, List.append_assoc]
          · exact (short_eq_evKey_absurd [']'] u0 b hy (by simp)).elim
          · exact (sep_straddle_absurd ']' p1 p2 [] b hp hne2 hy
              (by decide)).elim

/-- Any occurrence of the pattern inside rendered members is a key
occurrence; the continuation may be empty at the end of the members. -/
theorem occM (ms : Jmembers) (hwf : wfPlainM ms = true) (a b : List Char)
    (h : renderMembers ms = a ++ evKey ++ b) : GoodM b := by
  cases ms with
  | nil =>
      rw [renderMembers] at h
      exact (short_eq_evKey_absurd [] a b h (by simp)).elim
  | cons k v ms =>
      obtain ⟨hk, hv, hms⟩ := wfPlainM_cons k v ms hwf
      rw [renderMembers] at h
      cases a with
      | nil =>
          rw [List.nil_append, evKey_append] at h
          injection h with h1 h2
          have huniq := quote_split_unique k evName
            (':' :: (renderV v ++ (msep ms ++ renderMembers ms)))
            (':' :: b) (strPlain_no_quote k hk) (by decide) h2
          have hb : b = renderV v ++ (msep ms ++ renderMembers ms) := by
            have h3 := huniq.2
            injection h3 with h4 h5
            exact h5.symm
          refine ⟨v, msep ms ++ renderMembers ms, hv, ?_, hb⟩
          cases ms with
          | nil => exact Or.inl rfl
          | cons k2 v2 ms2 =>
              obtain ⟨hk2, hv2, hms2⟩ := wfPlainM_cons k2 v2 ms2 hms
              exact Or.inr (Or.inr ⟨k2,
                renderV v2 ++ (msep ms2 ++ renderMembers ms2), hk2, rfl⟩)
      | cons c a1 =>
          simp only [List.cons_append] at h
          injection h with h1 h2
          rcases append_eq_split k
              ('"' :: (':' :: (renderV v ++ (msep ms ++ renderMembers ms))))
              a1 evKey b h2 with
            ⟨w0, hs, hb⟩ | ⟨u0, hu, hy⟩ | ⟨p1, p2, hp, hne1, hne2, hxu, hy⟩
          · exact absurd (quote_mem_of_eq k a1 w0 hs)
              (strPlain_no_quote k hk)
          · cases u0 with
            | nil =>
                rw [List.nil_append, evKey_append] at hy
                injection hy with h3 h4
                rw [show evName = 'e' :: "vidence".toList from by decide]
                  at h4
                simp only [List.cons_append] at h4
                injection h4 with h5 h6
                exact absurd h5 (by decide)
            | cons c2 u1 =>
                simp only [List.cons_append] at hy
                injection hy with h3 h4
                cases u1 with
                | nil =>
                    rw [List.nil_append, evKey_append] at h4
                    injection h4 with h5 h6
                    exact absurd h5 (by decide)
                | cons c3 u2 =>
                    simp only [List.cons_append] at h4
                    injection h4 with h5 h6
                    rcases append_eq_split (renderV v)
                        (msep ms ++ renderMembers ms) u2 evKey b h6 with
                      ⟨w0, hs2, hb2⟩ | ⟨u3, hu3, hy4⟩ |
                        ⟨q1, q2, hq, hqne1, hqne2, hqxu, hy4⟩
                    · obtain ⟨w, r, hw, htm, hb0⟩ := occV v hv u2 w0 hs2
                      refine ⟨w, r ++ (msep ms ++ renderMembers ms), hw,
                        Or.inr (TailM_append r _ htm), ?_⟩
                      rw [hb2, hb0, List.append_assoc]
                    · cases ms with
                      | nil =>
                          rw [show msep Jmembers.nil = [] from rfl,
                            show renderMembers Jmembers.nil = [] from rfl]
                            at hy4
                          simp only [List.nil_append] at hy4
                          exact (short_eq_evKey_absurd [] u3 b hy4
                            (by simp)).elim
                      | cons k2 v2 ms2 =>
                          rw [show msep (Jmembers.cons k2 v2 ms2) = [',']
                            from rfl, List.singleton_append] at hy4
                          cases u3 with
                          | nil =>
                              rw [List.nil_append, evKey_append] at hy4
                              injection hy4 with h7 h8
                              exact absurd h7 (by decide)
                          | cons c4 u4 =>
                              simp only [List.cons_append] at hy4
                              injection hy4 with h7 h8
                              exact occM (.cons k2 v2 ms2) hms u4 b h8
                    · cases ms with
                      | nil =>
                          rw [show msep Jmembers.nil = [] from rfl,
                            show renderMembers Jmembers.nil = [] from rfl]
                            at hy4
                          simp only [List.nil_append] at hy4
                          cases q2 with
                          | nil => exact absurd rfl hqne2
                          | cons c5 t5 =>
                              simp only [List.cons_append] at hy4
                              exact List.noConfusion hy4
                      | cons k2 v2 ms2 =>
                          rw [show msep (Jmembers.cons k2 v2 ms2) = [',']
                            from rfl, List.singleton_append] at hy4
                          exact (sep_straddle_absurd ',' q1 q2 _ b hq hqne2
                            hy4 (by decide)).elim
          · have hqs : '"' ∈ k := by
              rw [hxu]
              exact List.mem_append_right a1 (evKey_split_quote p1 p2 hp hne1)
            exact absurd hqs (strPlain_no_quote k hk)

/-- Any occurrence of the pattern inside rendered elements is a key
occurrence with a nonempty `TailM` continuation. -/
theorem occE (es : Jelems) (hwf : wfPlainE es = true) (a b : List Char)
    (h : renderElems es = a ++ evKey ++ b) : GoodV b := by
  cases es with
  | nil =>
      rw [renderElems] at h
      exact (short_eq_evKey_absurd [] a b h (by simp)).elim
  | cons v es =>
      obtain ⟨hv, hes⟩ := wfPlainE_cons v es hwf
      rw [renderElems] at h
      rcases append_eq_split (renderV v) (esep es ++ renderElems es)
          a evKey b h with
        ⟨w0, hs, hb⟩ | ⟨u0, hu, hy⟩ | ⟨p1, p2, hp, hne1, hne2, hxu, hy⟩
      · obtain ⟨w, r, hw, htm, hb0⟩ := occV v hv a w0 hs
        refine ⟨w, r ++ (esep es ++ renderElems es), hw,
          TailM_append r _ htm, ?_⟩
        rw [hb, hb0, List.append_assoc]
      · cases es with
        | nil =>
            rw [show esep Jelems.nil = [] from rfl,
              show renderElems Jelems.nil = [] from rfl] at hy
            simp only [List.nil_append] at hy
            exact (short_eq_evKey_absurd [] u0 b hy (by simp)).elim
        | cons v2 es2 =>
            rw [show esep (Jelems.cons v2 es2) = [','] from rfl,
              List.singleton_append] at hy
            cases u0 with
            | nil =>
                rw [List.nil_append, evKey_append] at hy
                injection hy with h3 h4
                exact absurd h3 (by decide)
            | cons c2 u1 =>
                simp only [List.cons_append] at hy
                injection hy with h3 h4
                exact occE (.cons v2 es2) hes u1 b h4
      · cases es with
        | nil =>
            rw [show esep Jelems.nil = [] from rfl,
              show renderElems Jelems.nil = [] from rfl] at hy
            simp only [List.nil_append] at hy
            cases p2 with
            | nil => exact absurd rfl hne2
            | cons c5 t5 =>
                simp only [List.cons_append] at hy
                exact List.noConfusion hy
        | cons v2 es2 =>
            rw [show esep (Jelems.cons v2 es2) = [','] from rfl,
              List.singleton_append] at hy
            exact (sep_straddle_absurd ',' p1 p2 _ b hp hne2 hy
              (by decide)).elim

end

/-- The closing-quote scan over escape-free content finds the closing
quote exactly at the end of the content. -/
lemma findClosingQuote_plain (s : List Char) (r : List Char) (prev : Char)
    (i : Nat) (hq : '"' ∉ s) (hbs : '\\' ∉ s) (hprev : prev ≠ '\\') :
    findClosingQuote (s ++ '"' :: r) prev i = some (i + s.length) := by
  induction s generalizing prev i with
  | nil =>
      rw [List.nil_append, findClosingQuote, if_pos ⟨rfl, hprev⟩]
      simp
  | cons c t ih =>
      have hqt : '"' ∉ t := fun hm => hq (List.mem_cons_of_mem c hm)
      have hbt : '\\' ∉ t := fun hm => hbs (List.mem_cons_of_mem c hm)
      have hcne : c ≠ '\\' := fun hco => hbs (by
        rw [hco]; exact List.mem_cons_self _ _)
      have hcq : c ≠ '"' := fun hco => hq (by
        rw [hco]; exact List.mem_cons_self _ _)
      rw [List.cons_append, findClosingQuote,
        if_neg (fun hco => hcq hco.1), ih c (i + 1) hqt hbt hcne]
      congr 1
      simp only [List.length_cons]
      omega

/-- Searching for a quote after quote-free text finds the first quote. -/
lemma findSub_quote_plain (k t : List Char) (hq : '"' ∉ k) :
    findSub "\"".toList (k ++ '"' :: t) = some k.length := by
  rw [show "\"".toList = ['"'] from by decide]
  induction k with
  | nil =>
      rw [List.nil_append, findSub, if_pos (by rw [begins, begins]; simp)]
      simp
  | cons c t2 ih =>
      have hqt : '"' ∉ t2 := fun hm => hq (List.mem_cons_of_mem c hm)
      have hcq : c ≠ '"' := fun hco => hq (by
        rw [hco]; exact List.mem_cons_self _ _)
      rw [List.cons_append, findSub,
        if_neg (by simp [begins, Ne.symm hcq]), ih hqt]
      simp

/-- On the render of a plain string value followed by a `TailM`
continuation, the collecting loop gathers exactly one string. -/
lemma collect_one (s r : List Char) (fuel : Nat) (hs : strPlain s = true)
    (htm : TailM r) :
    ((collectStrings (fuel + 1) ('"' :: (s ++ ('"' :: r))) []).1).length
      = 1 := by
  have hq := strPlain_no_quote s hs
  have hbs : '\\' ∉ s := fun hm => (strPlain_mem s hs '\\' hm).2 rfl
  rw [collectStrings]
  rw [if_neg (by simp)]
  rw [show List.drop 1 ('"' :: (s ++ ('"' :: r))) = s ++ ('"' :: r)
    from rfl]
  rw [findClosingQuote_plain s r '"' 1 hq hbs (by decide)]
  dsimp only
  have hdrop : List.drop (1 + s.length + 1) ('"' :: (s ++ ('"' :: r)))
      = r := by
    rw [show ('"' :: (s ++ ('"' :: r))) = ('"' :: (s ++ ['"'])) ++ r
      from by simp]
    exact List.drop_left' (by simp; omega)
  rw [hdrop]
  rcases htm with ⟨r2, rfl⟩ | ⟨k, r2, hk, rfl⟩
  · rw [trimStart_id_of_head ('\x7d' :: r2) '\x7d' rfl (by decide)]
    simp only [List.head?_cons]
    rw [if_neg (by decide)]
    simp
  · rw [trimStart_id_of_head
      (',' :: ('"' :: (k ++ ('"' :: (':' :: r2))))) ',' rfl (by decide)]
    rw [if_pos (show
      (',' :: ('"' :: (k ++ ('"' :: (':' :: r2))))).head? = some ','
      from rfl)]
    rw [show List.drop 1 (',' :: ('"' :: (k ++ ('"' :: (':' :: r2)))))
      = '"' :: (k ++ ('"' :: (':' :: r2))) from rfl]
    rw [trimStart_id_of_head
      ('"' :: (k ++ ('"' :: (':' :: r2)))) '"' rfl (by decide)]
    simp only [List.head?_cons]
    rw [if_neg (by simp)]
    rw [show List.drop 1 ('"' :: (k ++ ('"' :: (':' :: r2))))
      = k ++ ('"' :: (':' :: r2)) from rfl]
    rw [findSub_quote_plain k (':' :: r2) (strPlain_no_quote k hk)]
    dsimp only
    have hdrop2 : List.drop (k.length + 2)
        ('"' :: (k ++ ('"' :: (':' :: r2)))) = ':' :: r2 := by
      rw [show ('"' :: (k ++ ('"' :: (':' :: r2))))
        = ('"' :: (k ++ ['"'])) ++ (':' :: r2) from by simp]
      exact List.drop_left' (by simp)
    rw [hdrop2]
    rw [trimStart_id_of_head (':' :: r2) ':' rfl (by decide)]
    rw [if_pos (show (':' :: r2).head? = some ':' from rfl)]
    simp

/-- All-ASCII text: the domain on which the character-indexed model of
`sanitize_json` coincides with the byte-slicing Rust code (off ASCII,
the Rust `&remaining[i + 1..]` with a char-count `i` panics or
mis-slices, so no identity statement is made there). -/
def asciiList (l : List Char) : Bool :=
  l.all (fun c => c.toNat ≤ 127)

/-- On the canonical render of a plain, all-ASCII JSON object,
`sanitize_json` is the identity.  The `asciiList` hypothesis scopes the
statement to the inputs where the character-indexed model is faithful
to the Rust byte slicing; the proof itself is index-agnostic. -/
lemma sanitize_render_id (ms : Jmembers) (hwf : wfPlainM ms = true)
    (_hascii : asciiList (renderV (.obj ms)) = true) :
    sanitize_json (renderV (.obj ms)) = renderV (.obj ms) := by
  simp only [sanitize_json]
  rw [show "\"evidence\":".toList = evKey from rfl]
  cases hfs : findSub evKey (renderV (.obj ms)) with
  | none => rfl
  | some start =>
      dsimp only
      have hsplit := findSub_some_split evKey (renderV (.obj ms)) start hfs
      obtain ⟨w, r, hw, htm, hB⟩ := occV (.obj ms) hwf
        ((renderV (.obj ms)).take start)
        ((renderV (.obj ms)).drop (start + evKey.length)) hsplit
      rw [hB]
      cases w with
      | str s =>
          have hs : strPlain s = true := hw
          rw [show renderV (.str s) ++ r = '"' :: (s ++ ('"' :: r))
            from by rw [renderV]; simp]
          rw [trimStart_id_of_head ('"' :: (s ++ ('"' :: r))) '"' rfl
            (by decide)]
          rw [if_neg (by simp)]
          rw [collect_one s r ('"' :: (s ++ ('"' :: r))).length hs htm]
          rw [if_neg (by omega)]
      | num n =>
          cases hnr : natRender n with
          | nil => exact absurd hnr (natRender_ne_nil n)
          | cons c cs =>
              have hcmem : c ∈ natRender n := by
                rw [hnr]
                exact List.mem_cons_self _ _
              obtain ⟨d, hd, hcd⟩ := natRenderAux_digits (n + 1) n c hcmem
              have hcq : c ≠ '"' := by
                rw [hcd]
                exact (digit_char_props d hd).1
              have hcw : isWs c = false := by
                rw [hcd]
                exact (digit_char_props d hd).2.2.2.2.1
              rw [show renderV (.num n) ++ r = c :: (cs ++ r)
                from by rw [renderV, hnr]; simp]
              rw [trimStart_id_of_head (c :: (cs ++ r)) c rfl hcw]
              rw [if_pos (show (c :: (cs ++ r)).head? ≠ some '"' from
                fun hco => hcq (Option.some.inj hco))]
      | obj ms2 =>
          rw [show renderV (.obj ms2) ++ r
            = '\x7b' :: ((renderMembers ms2 ++ ['\x7d']) ++ r)
            from by rw [renderV]; simp]
          rw [trimStart_id_of_head
            ('\x7b' :: ((renderMembers ms2 ++ ['\x7d']) ++ r)) '\x7b' rfl
            (by decide)]
          rw [if_pos (show
            ('\x7b' :: ((renderMembers ms2 ++ ['\x7d']) ++ r)).head?
              ≠ some '"' from
            fun hco => absurd (Option.some.inj hco) (by decide))]
      | arr es2 =>
          rw [show renderV (.arr es2) ++ r
            = '[' :: ((renderElems es2 ++ [']']) ++ r)
            from by rw [renderV]; simp]
          rw [trimStart_id_of_head
            ('[' :: ((renderElems es2 ++ [']']) ++ r)) '[' rfl (by decide)]
          rw [if_pos (show
            ('[' :: ((renderElems es2 ++ [']']) ++ r)).head? ≠ some '"' from
            fun hco => absurd (Option.some.inj hco) (by decide))]

/-- C9.  Corrected form of the claim: on the canonical render of an
escape-free JSON object, `extract_json` is the identity — hence
idempotent — provided the render contains no backtick, and
`sanitize_json` is the identity provided the render is all-ASCII.  The
original claim fails without the extra hypotheses: see the
counterexample for backticks in string values (extract) and escaped
quotes in keys (sanitize); the ASCII hypothesis marks where the
character-indexed model of `sanitize_json` matches the Rust, whose
collect loop slices bytes with a char-count index and so panics or
mis-slices on multi-byte string content. -/
theorem C9_extract_sanitize_identity (ms : Jmembers)
    (hwf : wfPlainM ms = true) :
    (btick ∉ renderV (.obj ms) →
      extract_json (renderV (.obj ms)) = renderV (.obj ms) ∧
      extract_json (extract_json (renderV (.obj ms)))
        = extract_json (renderV (.obj ms))) ∧
    (asciiList (renderV (.obj ms)) = true →
      sanitize_json (renderV (.obj ms)) = renderV (.obj ms)) := by
  refine ⟨fun hbt => ?_, fun hascii => sanitize_render_id ms hwf hascii⟩
  have h1 := extract_render_id ms hwf hbt
  exact ⟨h1, by rw [h1, h1]⟩

/-- A two-member object with an `evidence` key, for the witness. -/
def wObj : Jmembers :=
  .cons "evidence".toList (.str "ok".toList)
    (.cons "verdict".toList (.str "yes".toList) .nil)

/-- C9, witness: the identity theorem at a concrete all-ASCII
two-member object holding an `evidence` key followed by a further
member. -/
theorem C9_identity_witness :
    wfPlainM wObj = true ∧ btick ∉ renderV (.obj wObj) ∧
    asciiList (renderV (.obj wObj)) = true ∧
    (extract_json (renderV (.obj wObj)) = renderV (.obj wObj) ∧
      extract_json (extract_json (renderV (.obj wObj)))
        = extract_json (renderV (.obj wObj))) ∧
    sanitize_json (renderV (.obj wObj)) = renderV (.obj wObj) :=
  ⟨by decide, by decide, by decide,
    (C9_extract_sanitize_identity wObj (by decide)).1 (by decide),
    (C9_extract_sanitize_identity wObj (by decide)).2 (by decide)⟩

end Chronicle
